import Mathlib

/-!
Verification development for the Coulomb-Hamiltonian engine of the TIMES_MCP
repository (files lib.py and server.py).

The source computes exact symbolic quantities with sympy.  Every angular
factor appearing in the code is of the form q * sqrt(r) with q, r rational
(a Wigner 3j symbol times rational prefactors), so symbolic scalars are
embedded by the pair (q, r), interpreted in the reals as q * Real.sqrt r.
Coulomb matrix elements are linear combinations of the four Slater-Condon
symbols f0, f2, f4, f6; such a combination is embedded as the vector of its
four coefficients (index 0 for f0, 1 for f2, 2 for f4, 3 for f6).
-/

/-- A scalar of the form c * sqrt(r) with c, r rational.  All radicals the
source manipulates (Wigner 3j values and their products with rational
factors) have this shape. -/
structure Rad where
  c : ℚ
  r : ℚ
deriving DecidableEq, Repr

namespace Rad

/-- The real value denoted by the pair: c * sqrt r. -/
noncomputable def rval (x : Rad) : ℝ := (x.c : ℝ) * Real.sqrt (x.r : ℝ)

/-- Product of two radical scalars: (c1 * sqrt r1) * (c2 * sqrt r2)
is (c1*c2) * sqrt (r1*r2). -/
def mul (x y : Rad) : Rad := ⟨x.c * y.c, x.r * y.r⟩

/-- Scaling by a rational. -/
def smul (q : ℚ) (x : Rad) : Rad := ⟨q * x.c, x.r⟩

/-- The zero scalar. -/
def zero : Rad := ⟨0, 0⟩

end Rad

/-- (-1)^z for an integer z, as a rational. -/
def negOnePow (z : ℤ) : ℚ := if z % 2 = 0 then 1 else -1

/-- Factorial of an integer, 0 on negatives (guards in the 3j formula ensure
it is only evaluated on nonnegative arguments). -/
def factZ (z : ℤ) : ℚ := if z < 0 then 0 else (Nat.factorial z.toNat : ℚ)

/-- The triangle coefficient Delta(j1,j2,j3) of the Racah formula. -/
def delta3 (j1 j2 j3 : ℕ) : ℚ :=
  factZ ((j1 : ℤ) + j2 - j3) * factZ ((j1 : ℤ) - j2 + j3) *
    factZ (-(j1 : ℤ) + j2 + j3) / factZ ((j1 : ℤ) + j2 + j3 + 1)

/-- The alternating sum of the Racah formula for the Wigner 3j symbol. -/
def w3jSum (j1 j2 j3 : ℕ) (m1 m2 : ℤ) : ℚ :=
  ((List.range (j1 + j2 + 1)).map (fun t : ℕ =>
    let tz : ℤ := (t : ℤ)
    let a1 : ℤ := (j1 : ℤ) + j2 - j3 - tz
    let a2 : ℤ := (j1 : ℤ) - m1 - tz
    let a3 : ℤ := (j2 : ℤ) + m2 - tz
    let a4 : ℤ := (j3 : ℤ) - j2 + m1 + tz
    let a5 : ℤ := (j3 : ℤ) - j1 - m2 + tz
    if 0 ≤ a1 ∧ 0 ≤ a2 ∧ 0 ≤ a3 ∧ 0 ≤ a4 ∧ 0 ≤ a5 then
      negOnePow tz /
        (factZ tz * factZ a1 * factZ a2 * factZ a3 * factZ a4 * factZ a5)
    else 0)).sum

/-- Wigner 3j symbol by the Racah single-sum formula (the formula used by
sympy.physics.wigner.wigner_3j), represented as a radical scalar:
w3j = phase * Sum * sqrt(Delta * prod (ji - mi)! (ji + mi)!), zero unless
the selection rules (m1+m2+m3 = 0, |mi| <= ji, triangle inequalities)
hold.  Here m3 is unused in the sum and the radicand carries the product
of the six factorials. -/
def w3j (j1 j2 j3 : ℕ) (m1 m2 m3 : ℤ) : Rad :=
  if m1 + m2 + m3 = 0 ∧ m1.natAbs ≤ j1 ∧ m2.natAbs ≤ j2 ∧ m3.natAbs ≤ j3 ∧
      j3 ≤ j1 + j2 ∧ j1 ≤ j2 + j3 ∧ j2 ≤ j1 + j3 then
    ⟨negOnePow ((j1 : ℤ) - j2 - m3) * w3jSum j1 j2 j3 m1 m2,
     delta3 j1 j2 j3 *
       (factZ ((j1 : ℤ) + m1) * factZ ((j1 : ℤ) - m1) *
        factZ ((j2 : ℤ) + m2) * factZ ((j2 : ℤ) - m2) *
        factZ ((j3 : ℤ) + m3) * factZ ((j3 : ℤ) - m3))⟩
  else Rad.zero

/-- The Gaunt coefficient (integral of three spherical harmonics), as used
by sympy.physics.wigner.gaunt, in its 3j-product form:
gaunt(l1,l2,l3,m1,m2,m3)
  = sqrt((2 l1+1)(2 l2+1)(2 l3+1)/(4 pi)) * w3j(l1,l2,l3,0,0,0)
      * w3j(l1,l2,l3,m1,m2,m3). -/
noncomputable def gauntR (l1 l2 l3 : ℕ) (m1 m2 m3 : ℤ) : ℝ :=
  Real.sqrt (((2 * l1 + 1) * (2 * l2 + 1) * (2 * l3 + 1) : ℕ) / (4 * Real.pi)) *
    (w3j l1 l2 l3 0 0 0).rval * (w3j l1 l2 l3 m1 m2 m3).rval

/-- The combination sqrt(4*pi) * gaunt(l, k, l, m1, m2, m3) / sqrt(2*k+1)
computed by the source for each multipole order k.  Substituting the
3j-product form of the Gaunt coefficient, the pi and 2k+1 factors cancel:
sqrt(4 pi) * sqrt((2l+1)(2k+1)(2l+1)/(4 pi)) / sqrt(2k+1) = 2l+1, leaving
(2l+1) * w3j(l,k,l,0,0,0) * w3j(l,k,l,m1,m2,m3) (see
gauntNormRad_eq_sqrt_gauntR below, which proves this against gauntR). -/
def gauntNormRad (l k : ℕ) (m1 m2 m3 : ℤ) : Rad :=
  Rad.smul ((2 * l + 1 : ℕ) : ℚ) (Rad.mul (w3j l k l 0 0 0) (w3j l k l m1 m2 m3))

/-- Sign factor pre01 / pre02 of coulomb_contribution: for l = 3 it is -1 on
m in [-3, -1, 1, 3], else 1; for l = 1 and l = 2 it is -1 on m in [-1, 1],
else 1 (the two branches of the source have the same shape). -/
def pre0 (l : ℕ) (m : ℤ) : ℚ :=
  if l = 3 then (if m = -3 ∨ m = -1 ∨ m = 1 ∨ m = 3 then -1 else 1)
  else (if m = -1 ∨ m = 1 then -1 else 1)

/-- The per-l zip lists of coulomb_contribution: multipole order k, the index
of the Slater-Condon symbol fk it multiplies (0 for f0, 1 for f2, 2 for f4,
3 for f6), and the tabulated prefactor pre. -/
def kList : ℕ → List (ℕ × Fin 4 × ℚ)
  | 3 => [(0, 0, 1), (2, 1, 15), (4, 2, 33), (6, 3, 429 / 5)]
  | 2 => [(0, 0, 1), (2, 1, 7), (4, 2, 21)]
  | 1 => [(0, 0, 1), (2, 1, 5)]
  | _ => []

/-- One factor T1 (or T2) of coulomb_contribution:
T = pre0 * pre * sqrt(4*pi) * gaunt(l, k, l, mm1, mm2, mm3) / sqrt(2*k+1),
with the Gaunt combination in its rationalized form gauntNormRad. -/
def coulT (l k : ℕ) (pre : ℚ) (sgn : ℚ) (mm1 mm2 mm3 : ℤ) : Rad :=
  Rad.smul (sgn * pre) (gauntNormRad l k mm1 mm2 mm3)

/-- coulomb_contribution(m1, m2, m3, m4, l) of the source, as the vector of
its coefficients on (f0, f2, f4, f6): for each (k, fk, pre) in the per-l zip
list the code appends fk * T1 * T2 with
T1 = pre01 * pre * sqrt(4 pi) * gaunt(l,k,l, -m1, m1-m4, m4) / sqrt(2k+1),
T2 = pre02 * pre * sqrt(4 pi) * gaunt(l,k,l, -m3, m3-m2, m2) / sqrt(2k+1),
and returns the sum; each fk occurs for at most one k, so the coefficient of
fk is T1 * T2 for that k (and 0 for absent k).  For l = 0 the result is 0;
for l outside {0,1,2,3} the zip list is empty and the sum is empty (the
source returns sum([]) = 0 there). -/
def coulomb_contribution (m1 m2 m3 m4 : ℤ) (l : ℕ) : Fin 4 → Rad := fun i =>
  match (kList l).find? (fun e => e.2.1 = i) with
  | none => Rad.zero
  | some (k, _, pre) =>
      Rad.mul (coulT l k pre (pre0 l m1) (-m1) (m1 - m4) m4)
              (coulT l k pre (pre0 l m3) (-m3) (m3 - m2) m2)

/-! ## Single-particle states, configurations, enumeration (lib.py) -/

/-- A single-particle state (m_l, m_s). -/
abbrev State := ℤ × ℚ

/-- A configuration: the tuple of occupied single-particle states. -/
abbrev Config := List State

/-- get_single_states(l): all (m_l, +1/2) for m_l from -l to l, followed by
all (m_l, -1/2) for m_l from -l to l. -/
def get_single_states (l : ℕ) : List State :=
  ((List.range (2 * l + 1)).map fun i : ℕ => ((i : ℤ) - l, (1 : ℚ) / 2)) ++
    ((List.range (2 * l + 1)).map fun i : ℕ => ((i : ℤ) - l, -(1 : ℚ) / 2))

/-- itertools.combinations: all length-n subsequences of l, in the order
itertools yields them (lexicographic in positions). -/
def combinations {α : Type} : ℕ → List α → List (List α)
  | 0, _ => [[]]
  | _ + 1, [] => []
  | n + 1, x :: xs => ((combinations n xs).map fun c => x :: c) ++ combinations (n + 1) xs

/-- enumerate_fn_configurations: the n-combinations of the single-electron
states whose total m_l equals target_m_l and total m_s equals target_m_s. -/
def enumerate_fn_configurations (n : ℕ) (target_m_l : ℤ) (target_m_s : ℚ)
    (single_electron_states : List State) : List Config :=
  (combinations n single_electron_states).filter fun config =>
    (config.map Prod.fst).sum = target_m_l ∧ (config.map Prod.snd).sum = target_m_s

/-! ## Term selection (get_required_coulomb_terms of lib.py) -/

/-- The kind tag of a term ("direct" / "exchange" in the source). -/
inductive TermKind where
  | direct : TermKind
  | exchange : TermKind
deriving DecidableEq, Repr

/-- A term (sign, kind, (m1, m2, m3, m4)). -/
abbrev CTerm := ℤ × TermKind × (ℤ × ℤ × ℤ × ℤ)

/-- The list with one copy of each element of l, in order of first
occurrence: the key order of a python Counter built from l. -/
def firstDedup {α : Type} [DecidableEq α] : List α → List α
  | [] => []
  | x :: xs => x :: firstDedup (xs.filter (fun y => y ≠ x))
termination_by l => l.length
decreasing_by
  exact Nat.lt_succ_of_le (List.length_filter_le _ _)

/-- list((Counter(l1) - Counter(l2)).elements()): for each distinct element
of l1 in first-occurrence order, max(count1 - count2, 0) copies. -/
def counterSub {α : Type} [DecidableEq α] (l1 l2 : List α) : List α :=
  (firstDedup l1).flatMap fun x => List.replicate (l1.count x - l2.count x) x

/-- The diagonal (state1 == state2) branch of get_required_coulomb_terms:
for every pair i < j a direct term with sign +1 and, when the spins agree,
an exchange term with sign +1. -/
def diagTerms (state1 : Config) : List CTerm :=
  (List.range state1.length).flatMap fun i =>
    ((List.range state1.length).filter fun j => i < j).flatMap fun j =>
      let si := state1.getD i (0, 0)
      let sj := state1.getD j (0, 0)
      (1, TermKind.direct, (si.1, sj.1, si.1, sj.1)) ::
        (if si.2 = sj.2 then [(1, TermKind.exchange, (si.1, sj.1, sj.1, si.1))] else [])

/-- Number of inversions of a list of naturals (pairs of positions in order
whose values are out of order). -/
def invCount (p : List ℕ) : ℕ :=
  ((Finset.range p.length ×ˢ Finset.range p.length).filter fun ij =>
    ij.1 < ij.2 ∧ p.getD ij.2 0 < p.getD ij.1 0).card

/-- Permutation(perm).signature() of sympy: the parity of the permutation
given as its list of images, computed as (-1)^inversions (for a permutation
list this equals the cycle-decomposition signature sympy uses). -/
def permSign (p : List ℕ) : ℤ := (-1) ^ invCount p

/-- One candidate assignment (a, b) from the removed pair and (c, d) from
the added pair, as tried inside the nested permutation loops of
get_required_coulomb_terms: spins must match pairwise, a and b are looked
up in state1, replaced by c and d, the trial list must reproduce state2 as
a multiset, and the terms are emitted with the signature of the index
permutation aligning the trial list with state2. -/
def tryAssign (state1 state2 : Config) (a b c d : State) : Option (List CTerm) :=
  if a.2 = c.2 ∧ b.2 = d.2 then
    match state1.findIdx? (fun y => y = a), state1.findIdx? (fun y => y = b) with
    | some ia, some ib =>
      let trial := (state1.set ia c).set ib d
      if trial.isPerm state2 then
        let perm := state2.map fun x => trial.findIdx (fun y => y = x)
        let sgn := permSign perm
        some ((sgn, TermKind.direct, (a.1, b.1, c.1, d.1)) ::
          (if a.2 = b.2 then [(sgn, TermKind.exchange, (a.1, b.1, d.1, c.1))] else []))
      else none
    | _, _ => none
  else none

/-- The nested search loops: first successful assignment wins. -/
def searchAssign (state1 state2 : Config) :
    List (State × State × State × State) → List CTerm
  | [] => []
  | (a, b, c, d) :: rest =>
    match tryAssign state1 state2 a b c d with
    | some ts => ts
    | none => searchAssign state1 state2 rest

/-- get_required_coulomb_terms(state1, state2): the diagonal branch on equal
tuples; otherwise the Counter differences removed/added must both have
exactly two elements, and the four (a,b) x (c,d) orderings of the removed
and added pairs are searched in the order of the source's nested
itertools.permutations loops. -/
def get_required_coulomb_terms (state1 state2 : Config) : List CTerm :=
  if state1 = state2 then diagTerms state1
  else
    match counterSub state1 state2, counterSub state2 state1 with
    | [a, b], [c, d] =>
        searchAssign state1 state2 [(a, b, c, d), (a, b, d, c), (b, a, c, d), (b, a, d, c)]
    | _, _ => []

/-! ## Hamiltonian assembly and the tool response (server.py) -/

/-- The signed evaluator calls of the inner loop of get_hamiltonian for one
matrix entry: for a term (sign, kind, (m1, m2, m3, m4)) the code adds
sign * coulomb_contribution(m2, m1, m3, m4, l) for a direct term and
subtracts sign * coulomb_contribution(m2, m1, m3, m4, l) for an exchange
term.  Each summand is a radical scalar; the list collects them per
Slater-Condon coefficient slot. -/
def radOf (l : ℕ) (t : CTerm) (i : Fin 4) : Rad :=
  match t with
  | (s, TermKind.direct, (m1, m2, m3, m4)) =>
      Rad.smul (s : ℚ) (coulomb_contribution m2 m1 m3 m4 l i)
  | (s, TermKind.exchange, (m1, m2, m3, m4)) =>
      Rad.smul (-(s : ℚ)) (coulomb_contribution m2 m1 m3 m4 l i)

def entryRadList (l : ℕ) (c1 c2 : Config) (i : Fin 4) : List Rad :=
  (get_required_coulomb_terms c1 c2).map fun t => radOf l t i

/-- The value of matrix entry H[i, j] of get_hamiltonian (the simplified
total_contrib), as the vector of its coefficients on (f0, f2, f4, f6):
sympy's simplify preserves the value, so entries are compared by value. -/
noncomputable def entryVal (l : ℕ) (c1 c2 : Config) (i : Fin 4) : ℝ :=
  ((entryRadList l c1 c2 i).map Rad.rval).sum

/-- The assembled Hamiltonian of get_hamiltonian over a configuration list:
the square matrix indexed by the list, with H[i, j] built from
(configs[i], configs[j]).  Squareness with dimension = number of enumerated
configurations is carried by the index type Fin configs.length. -/
noncomputable def Hmat (l : ℕ) (configs : List Config) :
    Matrix (Fin configs.length) (Fin configs.length) (Fin 4 → ℝ) :=
  fun i j => entryVal l (configs.get i) (configs.get j)

/-- The orbital labels accepted by the tool (the Literal type of server.py). -/
inductive Orbital where
  | s : Orbital
  | p : Orbital
  | d : Orbital
  | f : Orbital
deriving DecidableEq, Repr

/-- orbital_l = {'s': 0, 'p': 1, 'd': 2, 'f': 3}. -/
def orbital_l : Orbital → ℕ
  | Orbital.s => 0
  | Orbital.p => 1
  | Orbital.d => 2
  | Orbital.f => 3

/-- The observable shape of the TextContent response assembled by
get_hamiltonian: the reported configuration count and listing, whether the
Hamiltonian matrix block was included, whether the eigenvalue block was
computed and included, and whether the "Matrix too large to diagonalize
symbolically." note was emitted. -/
structure HamResponse where
  nconfigs : ℕ
  configs : List Config
  hamiltonianIncluded : Bool
  eigenvaluesIncluded : Bool
  tooLargeNote : Bool
deriving DecidableEq, Repr

/-- get_hamiltonian(orbital, n_electrons, target_ML, target_MS) of
server.py: enumerate the sector; on zero configurations return at once with
the count-only report; otherwise report the configurations and the
assembled Hamiltonian, with the eigenvalue block exactly when the dimension
is at most 6 and the too-large note otherwise. -/
def get_hamiltonian (orbital : Orbital) (n_electrons : ℕ) (target_ML : ℤ)
    (target_MS : ℚ) : HamResponse :=
  let l := orbital_l orbital
  let configs := enumerate_fn_configurations n_electrons target_ML target_MS
    (get_single_states l)
  if configs.length = 0 then
    { nconfigs := 0, configs := [], hamiltonianIncluded := false,
      eigenvaluesIncluded := false, tooLargeNote := false }
  else
    { nconfigs := configs.length, configs := configs, hamiltonianIncluded := true,
      eigenvaluesIncluded := decide (configs.length ≤ 6),
      tooLargeNote := decide (6 < configs.length) }

/-- Evaluation of a symbolic entry (vector of coefficients on f0, f2, f4,
f6) at real parameter values. -/
noncomputable def paramEval (e : Fin 4 → ℝ) (F0 F2 F4 F6 : ℝ) : ℝ :=
  e 0 * F0 + e 1 * F2 + e 2 * F4 + e 3 * F6

/-! ## The integral-evaluator formula as worded by the specification -/

/-- The sign factor as worded by the specification: -1 when m is odd, +1
otherwise. -/
noncomputable def specPre (m : ℤ) : ℝ := if m % 2 = 0 then 1 else -1

/-- The per-order contribution coefficient as worded by the specification
(for comparison with the source): for the multipole order k carrying fk,
fk is multiplied by
pre1 * pre2 * Gaunt(l,k,l; -m1, m1-m4, m4)/sqrt(2k+1)
  * Gaunt(l,k,l; -m3, m3-m2, m2)/sqrt(2k+1) * 4*pi * c_k,
with c_k the tabulated per-l normalization constant, appearing to the
first power. -/
noncomputable def coulombSpecCoeff (l : ℕ) (i : Fin 4) (m1 m2 m3 m4 : ℤ) : ℝ :=
  match (kList l).find? (fun e => e.2.1 = i) with
  | none => 0
  | some (k, _, pre) =>
      specPre m1 * specPre m3 *
        (gauntR l k l (-m1) (m1 - m4) m4 / Real.sqrt (2 * k + 1)) *
        (gauntR l k l (-m3) (m3 - m2) m2 / Real.sqrt (2 * k + 1)) *
        (4 * Real.pi) * pre

/-- The corrected per-order coefficient: the tabulated constant c_k
multiplies each of the two Gaunt factors, hence appears squared in the
k-contribution:
fk * [pre1 * c_k * sqrt(4 pi) * Gaunt(l,k,l; -m1, m1-m4, m4)/sqrt(2k+1)]
   * [pre2 * c_k * sqrt(4 pi) * Gaunt(l,k,l; -m3, m3-m2, m2)/sqrt(2k+1)]. -/
noncomputable def coulombSpecCoeffSq (l : ℕ) (i : Fin 4) (m1 m2 m3 m4 : ℤ) : ℝ :=
  match (kList l).find? (fun e => e.2.1 = i) with
  | none => 0
  | some (k, _, pre) =>
      (specPre m1 * pre * (Real.sqrt (4 * Real.pi) * gauntR l k l (-m1) (m1 - m4) m4 /
          Real.sqrt (2 * k + 1))) *
        (specPre m3 * pre * (Real.sqrt (4 * Real.pi) * gauntR l k l (-m3) (m3 - m2) m2 /
          Real.sqrt (2 * k + 1)))

/-- The Racah summand of w3jSum for the (l, k, l) symbols used by the
evaluator, with arguments m1 = -x, m2 = x - y, re-indexed over the
integers (zero off the admissible window).  Used to prove the exchange
symmetry of the 3j factors by re-indexing the sum. -/
def w3jTermZ (l k : ℕ) (x y : ℤ) (t : ℤ) : ℚ :=
  if 0 ≤ t ∧ 0 ≤ (k : ℤ) - t ∧ 0 ≤ (l : ℤ) + x - t ∧ 0 ≤ (k : ℤ) + x - y - t ∧
      0 ≤ (l : ℤ) - k - x + t ∧ 0 ≤ y - x + t then
    negOnePow t /
      (factZ t * factZ ((k : ℤ) - t) * factZ ((l : ℤ) + x - t) *
        factZ ((k : ℤ) + x - y - t) * factZ ((l : ℤ) - k - x + t) * factZ (y - x + t))
  else 0

/-! ## Theorems.  First, evaluation lemmas for radical scalars. -/

theorem Rad.rval_zero : Rad.zero.rval = 0 := by simp [Rad.rval, Rad.zero]

theorem Rad.rval_smul (q : ℚ) (x : Rad) : (Rad.smul q x).rval = (q : ℝ) * x.rval := by
  simp only [Rad.rval, Rad.smul]; push_cast; ring

theorem Rad.rval_mul (x y : Rad) (hx : 0 ≤ x.r) :
    (Rad.mul x y).rval = x.rval * y.rval := by
  simp only [Rad.rval, Rad.mul]
  push_cast
  rw [Real.sqrt_mul (by exact_mod_cast hx)]
  ring

/-- A radical scalar whose radicand is the square of a nonnegative rational
denotes that rational multiple. -/
theorem Rad.rval_of_sq (x : Rad) (q : ℚ) (hq : 0 ≤ q) (h : x.r = q ^ 2) :
    x.rval = (x.c * q : ℚ) := by
  simp only [Rad.rval, h]
  push_cast
  rw [Real.sqrt_sq (by exact_mod_cast hq)]

/-! ## Combinatorial lemmas about the enumerator -/

theorem mem_combinations {α : Type} :
    ∀ (n : ℕ) (l c : List α), c ∈ combinations n l → c.Sublist l ∧ c.length = n := by
  intro n l
  induction l generalizing n with
  | nil =>
    intro c hc
    cases n with
    | zero => simp [combinations] at hc; simp [hc]
    | succ n => simp [combinations] at hc
  | cons x xs ih =>
    intro c hc
    cases n with
    | zero =>
      simp [combinations] at hc; simp [hc]
    | succ n =>
      simp only [combinations, List.mem_append, List.mem_map] at hc
      rcases hc with ⟨c1, hc1, rfl⟩ | hc
      · obtain ⟨hs, hl⟩ := ih n c1 hc1
        exact ⟨hs.cons₂ x, by simp [hl]⟩
      · obtain ⟨hs, hl⟩ := ih (n + 1) c hc
        exact ⟨hs.cons x, hl⟩

theorem combinations_eq_nil {α : Type} :
    ∀ (n : ℕ) (l : List α), l.length < n → combinations n l = [] := by
  intro n l
  induction l generalizing n with
  | nil =>
    intro h
    cases n with
    | zero => simp at h
    | succ n => rfl
  | cons x xs ih =>
    intro h
    cases n with
    | zero => simp at h
    | succ n =>
      simp only [List.length_cons, Nat.succ_lt_succ_iff] at h
      simp only [combinations, ih n h, List.map_nil, List.nil_append]
      exact ih (n + 1) (Nat.lt_succ_of_lt h)

theorem get_single_states_nodup (l : ℕ) : (get_single_states l).Nodup := by
  have hinj1 : Function.Injective (fun i : ℕ => (((i : ℤ) - l, (1 : ℚ) / 2) : State)) := by
    intro a b hab
    have h2 : ((a : ℤ) - l) = ((b : ℤ) - l) := congrArg Prod.fst hab
    omega
  have hinj2 : Function.Injective (fun i : ℕ => (((i : ℤ) - l, -(1 : ℚ) / 2) : State)) := by
    intro a b hab
    have h2 : ((a : ℤ) - l) = ((b : ℤ) - l) := congrArg Prod.fst hab
    omega
  refine List.Nodup.append (List.Nodup.map hinj1 (List.nodup_range (2 * l + 1)))
    (List.Nodup.map hinj2 (List.nodup_range (2 * l + 1))) ?_
  intro s hs1 hs2
  simp only [List.mem_map, List.mem_range] at hs1 hs2
  obtain ⟨a, _, rfl⟩ := hs1
  obtain ⟨b, _, hb⟩ := hs2
  have h3 : (-(1 : ℚ)) / 2 = 1 / 2 := congrArg Prod.snd hb
  norm_num at h3

theorem spin_mem_single_states (l : ℕ) (s : State) (hs : s ∈ get_single_states l) :
    s.2 = 1 / 2 ∨ s.2 = -(1 / 2) := by
  unfold get_single_states at hs
  simp only [List.mem_append, List.mem_map, List.mem_range] at hs
  rcases hs with ⟨a, _, rfl⟩ | ⟨a, _, rfl⟩
  · left; rfl
  · right; norm_num

/-- Core facts about enumerate_fn_configurations: every returned
configuration is a length-n duplicate-free selection from the state list
whose m_l total and m_s total equal the requested targets. -/
theorem enumerate_spec (n : ℕ) (ML : ℤ) (MS : ℚ) (states : List State)
    (hnd : states.Nodup) (c : Config)
    (hc : c ∈ enumerate_fn_configurations n ML MS states) :
    c.length = n ∧ c.Nodup ∧ (c.map Prod.fst).sum = ML ∧ (c.map Prod.snd).sum = MS := by
  unfold enumerate_fn_configurations at hc
  rw [List.mem_filter] at hc
  obtain ⟨hmem, hcond⟩ := hc
  obtain ⟨hsub, hlen⟩ := mem_combinations n states c hmem
  have hcond2 : (c.map Prod.fst).sum = ML ∧ (c.map Prod.snd).sum = MS := by
    simpa using of_decide_eq_true hcond
  exact ⟨hlen, hnd.sublist hsub, hcond2.1, hcond2.2⟩

theorem enumerate_mem_states (n : ℕ) (ML : ℤ) (MS : ℚ) (states : List State)
    (c : Config) (hc : c ∈ enumerate_fn_configurations n ML MS states) :
    ∀ s ∈ c, s ∈ states := by
  unfold enumerate_fn_configurations at hc
  rw [List.mem_filter] at hc
  exact fun s hs => (mem_combinations n states c hc.1).1.mem hs

/-! ## Counter-subtraction lemmas -/

theorem mem_firstDedup {α : Type} [DecidableEq α] :
    ∀ (l : List α) (x : α), x ∈ firstDedup l ↔ x ∈ l := by
  intro l
  induction l using firstDedup.induct with
  | case1 => intro x; simp [firstDedup]
  | case2 y ys ih =>
    intro x
    rw [firstDedup]
    by_cases hxy : x = y
    · subst hxy; simp
    · simp only [List.mem_cons, hxy, false_or]
      rw [ih x, List.mem_filter]
      simp [hxy]

theorem firstDedup_nodup {α : Type} [DecidableEq α] :
    ∀ l : List α, (firstDedup l).Nodup := by
  intro l
  induction l using firstDedup.induct with
  | case1 => rw [firstDedup]; exact List.nodup_nil
  | case2 y ys ih =>
    rw [firstDedup]
    refine List.nodup_cons.2 ⟨?_, ih⟩
    intro hy
    rw [mem_firstDedup, List.mem_filter] at hy
    simp at hy

theorem sum_map_ite_mem {α : Type} [DecidableEq α] :
    ∀ (L : List α) (x : α) (n : ℕ), L.Nodup →
      (L.map fun y => if x = y then n else 0).sum = if x ∈ L then n else 0 := by
  intro L x n hL
  induction L with
  | nil => simp
  | cons y ys ih =>
    rw [List.nodup_cons] at hL
    by_cases hxy : x = y
    · subst hxy
      simp only [List.map_cons, List.sum_cons, if_pos rfl, List.mem_cons, true_or, if_pos]
      rw [ih hL.2]
      simp [hL.1]
    · simp only [List.map_cons, List.sum_cons, if_neg hxy, List.mem_cons, Ne.symm,
        zero_add]
      rw [ih hL.2]
      simp [hxy]

theorem count_counterSub {α : Type} [DecidableEq α] (l1 l2 : List α) (x : α) :
    (counterSub l1 l2).count x = l1.count x - l2.count x := by
  unfold counterSub
  rw [List.count_flatMap]
  have h1 : ((firstDedup l1).map fun y => (List.replicate (l1.count y - l2.count y) y).count x)
      = (firstDedup l1).map fun y => if x = y then l1.count x - l2.count x else 0 := by
    refine List.map_congr_left ?_
    intro y _
    rw [List.count_replicate]
    rcases eq_or_ne x y with rfl | hxy
    · simp
    · simp [hxy, (Ne.symm hxy : y ≠ x)]
  rw [Function.comp_def]
  rw [h1, sum_map_ite_mem _ _ _ (firstDedup_nodup l1)]
  by_cases hx : x ∈ l1
  · rw [if_pos ((mem_firstDedup l1 x).2 hx)]
  · rw [if_neg (fun hc => hx ((mem_firstDedup l1 x).1 hc))]
    have h0 : l1.count x = 0 := List.count_eq_zero.2 hx
    omega

/-- The multiset of the Counter difference is the multiset difference. -/
theorem counterSub_coe (l1 l2 : List α2) [inst : DecidableEq α2] :
    ((counterSub l1 l2 : List α2) : Multiset α2) = (l1 : Multiset α2) - (l2 : Multiset α2) := by
  ext x
  rw [Multiset.coe_count, Multiset.count_sub, Multiset.coe_count, Multiset.coe_count]
  exact count_counterSub l1 l2 x

theorem counterSub_length_eq {α : Type} [DecidableEq α] (c1 c2 : List α)
    (hlen : c1.length = c2.length) :
    (counterSub c1 c2).length = (counterSub c2 c1).length := by
  have h1 : ∀ d1 d2 : List α, ((counterSub d1 d2 : List α) : Multiset α).card =
      (d1 : Multiset α).card - ((d1 : Multiset α) ∩ (d2 : Multiset α)).card := by
    intro d1 d2
    rw [counterSub_coe]
    have h2 := congrArg Multiset.card (Multiset.sub_add_inter (d1 : Multiset α) d2)
    rw [Multiset.card_add] at h2
    omega
  have ha := h1 c1 c2
  have hb := h1 c2 c1
  rw [Multiset.inter_comm] at hb
  simp only [Multiset.coe_card] at ha hb
  omega

theorem counterSub_eq_nil {α : Type} [DecidableEq α] (l1 l2 : List α)
    (h : (l1 : Multiset α) ≤ (l2 : Multiset α)) : counterSub l1 l2 = [] := by
  have h2 : ((counterSub l1 l2 : List α) : Multiset α) = 0 := by
    rw [counterSub_coe]
    exact tsub_eq_zero_of_le h
  rwa [Multiset.coe_eq_zero] at h2

/-! ## The term selector on pairs that cannot connect -/

theorem terms_eq_nil_of_not_two_two (c1 c2 : Config) (h1 : c1 ≠ c2)
    (h2 : ¬((counterSub c1 c2).length = 2 ∧ (counterSub c2 c1).length = 2)) :
    get_required_coulomb_terms c1 c2 = [] := by
  unfold get_required_coulomb_terms
  rw [if_neg h1]
  rcases hA : counterSub c1 c2 with _ | ⟨a, _ | ⟨b, _ | ⟨a3, tA⟩⟩⟩
  · rfl
  · rfl
  · rcases hB : counterSub c2 c1 with _ | ⟨c, _ | ⟨d, _ | ⟨c3, tB⟩⟩⟩
    · rfl
    · rfl
    · exact absurd ⟨by rw [hA]; rfl, by rw [hB]; rfl⟩ h2
    · rfl
  · rfl

theorem entryVal_of_terms_nil (l : ℕ) (c1 c2 : Config)
    (h : get_required_coulomb_terms c1 c2 = []) (i : Fin 4) :
    entryVal l c1 c2 i = 0 := by
  unfold entryVal entryRadList
  rw [h]
  simp

theorem terms_eq_nil_of_perm_ne (c1 c2 : Config) (h1 : c1 ≠ c2) (h : c1.Perm c2) :
    get_required_coulomb_terms c1 c2 = [] := by
  refine terms_eq_nil_of_not_two_two c1 c2 h1 ?_
  have hm : (c1 : Multiset State) = (c2 : Multiset State) := Multiset.coe_eq_coe.2 h
  have hA : counterSub c1 c2 = [] := counterSub_eq_nil c1 c2 hm.le
  intro hcon
  rw [hA] at hcon
  simp at hcon

/-! ## Structural lemmas on the 3j embedding -/

theorem factZ_nonneg (z : ℤ) : 0 ≤ factZ z := by
  unfold factZ
  split
  · exact le_refl 0
  · positivity

theorem delta3_nonneg (j1 j2 j3 : ℕ) : 0 ≤ delta3 j1 j2 j3 := by
  unfold delta3
  have h1 := factZ_nonneg ((j1 : ℤ) + j2 - j3)
  have h2 := factZ_nonneg ((j1 : ℤ) - j2 + j3)
  have h3 := factZ_nonneg (-(j1 : ℤ) + j2 + j3)
  have h4 := factZ_nonneg ((j1 : ℤ) + j2 + j3 + 1)
  positivity

theorem w3j_r_nonneg (j1 j2 j3 : ℕ) (m1 m2 m3 : ℤ) : 0 ≤ (w3j j1 j2 j3 m1 m2 m3).r := by
  unfold w3j
  split
  · have h0 := delta3_nonneg j1 j2 j3
    have h1 := factZ_nonneg ((j1 : ℤ) + m1)
    have h2 := factZ_nonneg ((j1 : ℤ) - m1)
    have h3 := factZ_nonneg ((j2 : ℤ) + m2)
    have h4 := factZ_nonneg ((j2 : ℤ) - m2)
    have h5 := factZ_nonneg ((j3 : ℤ) + m3)
    have h6 := factZ_nonneg ((j3 : ℤ) - m3)
    positivity
  · exact le_refl 0

theorem w3j_eq_zero_of_m1 (j1 j2 j3 : ℕ) (m1 m2 m3 : ℤ) (h : j1 < m1.natAbs) :
    w3j j1 j2 j3 m1 m2 m3 = Rad.zero := by
  unfold w3j
  rw [if_neg]
  intro hg
  exact absurd hg.2.1 (by omega)

theorem w3j_eq_zero_of_m3 (j1 j2 j3 : ℕ) (m1 m2 m3 : ℤ) (h : j3 < m3.natAbs) :
    w3j j1 j2 j3 m1 m2 m3 = Rad.zero := by
  unfold w3j
  rw [if_neg]
  intro hg
  exact absurd hg.2.2.2.1 (by omega)

theorem gauntNormRad_r_nonneg (l k : ℕ) (m1 m2 m3 : ℤ) :
    0 ≤ (gauntNormRad l k m1 m2 m3).r := by
  unfold gauntNormRad Rad.smul Rad.mul
  exact mul_nonneg (w3j_r_nonneg l k l 0 0 0) (w3j_r_nonneg l k l m1 m2 m3)

theorem coulT_r_nonneg (l k : ℕ) (pre sgn : ℚ) (mm1 mm2 mm3 : ℤ) :
    0 ≤ (coulT l k pre sgn mm1 mm2 mm3).r := by
  unfold coulT Rad.smul
  exact gauntNormRad_r_nonneg l k mm1 mm2 mm3

theorem coulomb_r_nonneg (m1 m2 m3 m4 : ℤ) (l : ℕ) (i : Fin 4) :
    0 ≤ ((coulomb_contribution m1 m2 m3 m4 l) i).r := by
  unfold coulomb_contribution
  rcases hfind : (kList l).find? (fun e => e.2.1 = i) with _ | ⟨k, i9, pre⟩
  · simp only [hfind]
    simp [Rad.zero]
  · simp only [hfind, Rad.mul]
    exact mul_nonneg (coulT_r_nonneg l k pre (pre0 l m1) (-m1) (m1 - m4) m4)
      (coulT_r_nonneg l k pre (pre0 l m3) (-m3) (m3 - m2) m2)

theorem rval_mul_zero_right (x : Rad) : (Rad.mul x Rad.zero).rval = 0 := by
  simp [Rad.mul, Rad.zero, Rad.rval]

/-- The rationalized Gaunt combination agrees with the literal
sqrt(4 pi) * gaunt / sqrt(2k+1) expression of the source. -/
theorem gauntNormRad_eq_sqrt_gauntR (l k : ℕ) (m1 m2 m3 : ℤ) :
    Real.sqrt (4 * Real.pi) * gauntR l k l m1 m2 m3 / Real.sqrt (2 * k + 1)
      = (gauntNormRad l k m1 m2 m3).rval := by
  have hsp : Real.sqrt (4 * Real.pi) ≠ 0 := by positivity
  have hsk : Real.sqrt (2 * (k : ℝ) + 1) ≠ 0 := by positivity
  have h0 : (0 : ℝ) ≤ (((2 * l + 1) * (2 * k + 1) * (2 * l + 1) : ℕ) : ℝ) := by positivity
  unfold gauntR gauntNormRad
  rw [Real.sqrt_div h0 (4 * Real.pi)]
  rw [Rad.rval_smul, Rad.rval_mul _ _ (w3j_r_nonneg l k l 0 0 0)]
  have hN : Real.sqrt (((2 * l + 1) * (2 * k + 1) * (2 * l + 1) : ℕ) : ℝ)
      = (2 * (l : ℝ) + 1) * Real.sqrt (2 * (k : ℝ) + 1) := by
    have hc : (((2 * l + 1) * (2 * k + 1) * (2 * l + 1) : ℕ) : ℝ)
        = (2 * (l : ℝ) + 1) ^ 2 * (2 * (k : ℝ) + 1) := by push_cast; ring
    rw [hc, Real.sqrt_mul (by positivity), Real.sqrt_sq (by positivity)]
  rw [hN]
  push_cast
  field_simp
  ring

/-! ## Vanishing of out-of-range Gaunt factors, and the sign convention -/

theorem gauntNormRad_rval_zero_m1 (l k : ℕ) (a b c : ℤ) (h : l < a.natAbs) :
    (gauntNormRad l k a b c).rval = 0 := by
  unfold gauntNormRad
  rw [w3j_eq_zero_of_m1 l k l a b c h]
  simp [Rad.smul, Rad.mul, Rad.zero, Rad.rval]

theorem gauntNormRad_rval_zero_m3 (l k : ℕ) (a b c : ℤ) (h : l < c.natAbs) :
    (gauntNormRad l k a b c).rval = 0 := by
  unfold gauntNormRad
  rw [w3j_eq_zero_of_m3 l k l a b c h]
  simp [Rad.smul, Rad.mul, Rad.zero, Rad.rval]

theorem pre0_cast_eq_specPre (l : ℕ) (hl : l = 1 ∨ l = 2 ∨ l = 3) (m : ℤ)
    (hm : m.natAbs ≤ l) : ((pre0 l m : ℚ) : ℝ) = specPre m := by
  rcases hl with rfl | rfl | rfl
  · have hlo : (-1 : ℤ) ≤ m := by omega
    have hhi : m ≤ 1 := by omega
    interval_cases m <;> norm_num [pre0, specPre]
  · have hlo : (-2 : ℤ) ≤ m := by omega
    have hhi : m ≤ 2 := by omega
    interval_cases m <;> norm_num [pre0, specPre]
  · have hlo : (-3 : ℤ) ≤ m := by omega
    have hhi : m ≤ 3 := by omega
    interval_cases m <;> norm_num [pre0, specPre]

/-- The evaluator of the source equals the spec formula corrected so that
the tabulated constant multiplies both Gaunt factors (i.e. appears
squared). -/
theorem coulomb_rval_eq_specSq (l : ℕ) (hl : l = 1 ∨ l = 2 ∨ l = 3)
    (m1 m2 m3 m4 : ℤ) (i : Fin 4) :
    ((coulomb_contribution m1 m2 m3 m4 l) i).rval = coulombSpecCoeffSq l i m1 m2 m3 m4 := by
  unfold coulomb_contribution coulombSpecCoeffSq
  rcases hfind : (kList l).find? (fun e => e.2.1 = i) with _ | ⟨k, i9, pre⟩
  · simp only [hfind]
    exact Rad.rval_zero
  · simp only [hfind]
    rw [Rad.rval_mul _ _ (coulT_r_nonneg l k pre (pre0 l m1) (-m1) (m1 - m4) m4)]
    unfold coulT
    rw [Rad.rval_smul, Rad.rval_smul]
    rw [gauntNormRad_eq_sqrt_gauntR l k (-m1) (m1 - m4) m4,
        gauntNormRad_eq_sqrt_gauntR l k (-m3) (m3 - m2) m2]
    by_cases h1 : m1.natAbs ≤ l
    · by_cases h3 : m3.natAbs ≤ l
      · have e1 : ((pre0 l m1 : ℚ) : ℝ) = specPre m1 := pre0_cast_eq_specPre l hl m1 h1
        have e3 : ((pre0 l m3 : ℚ) : ℝ) = specPre m3 := pre0_cast_eq_specPre l hl m3 h3
        push_cast
        push_cast at e1 e3
        rw [e1, e3]
      · have hz : (gauntNormRad l k (-m3) (m3 - m2) m2).rval = 0 :=
          gauntNormRad_rval_zero_m1 l k (-m3) (m3 - m2) m2 (by omega)
        rw [hz]
        push_cast
        ring
    · have hz : (gauntNormRad l k (-m1) (m1 - m4) m4).rval = 0 :=
        gauntNormRad_rval_zero_m1 l k (-m1) (m1 - m4) m4 (by omega)
      rw [hz]
      push_cast
      ring

/-! ## Concrete evaluations of the integral evaluator -/

theorem coulombSpecCoeff_some (l : ℕ) (i : Fin 4) (k : ℕ) (i9 : Fin 4) (pre : ℚ)
    (m1 m2 m3 m4 : ℤ)
    (hfind : (kList l).find? (fun e => e.2.1 = i) = some (k, i9, pre)) :
    coulombSpecCoeff l i m1 m2 m3 m4
      = specPre m1 * specPre m3 *
        (gauntR l k l (-m1) (m1 - m4) m4 / Real.sqrt (2 * k + 1)) *
        (gauntR l k l (-m3) (m3 - m2) m2 / Real.sqrt (2 * k + 1)) *
        (4 * Real.pi) * pre := by
  unfold coulombSpecCoeff
  rw [hfind]


theorem coulomb_contribution_some (l : ℕ) (i : Fin 4) (k : ℕ) (i9 : Fin 4) (pre : ℚ)
    (m1 m2 m3 m4 : ℤ)
    (hfind : (kList l).find? (fun e => e.2.1 = i) = some (k, i9, pre)) :
    (coulomb_contribution m1 m2 m3 m4 l) i
      = Rad.mul (coulT l k pre (pre0 l m1) (-m1) (m1 - m4) m4)
                (coulT l k pre (pre0 l m3) (-m3) (m3 - m2) m2) := by
  unfold coulomb_contribution
  rw [hfind]

/-- The value of one factor T of the evaluator, as a real number. -/
theorem coulT_rval (l k : ℕ) (pre sgn : ℚ) (mm1 mm2 mm3 : ℤ) :
    (coulT l k pre sgn mm1 mm2 mm3).rval
      = (sgn : ℝ) * (pre : ℝ) * (gauntNormRad l k mm1 mm2 mm3).rval := by
  unfold coulT
  rw [Rad.rval_smul]
  push_cast
  ring

theorem coulomb_rval_some (l : ℕ) (i : Fin 4) (k : ℕ) (i9 : Fin 4) (pre : ℚ)
    (m1 m2 m3 m4 : ℤ)
    (hfind : (kList l).find? (fun e => e.2.1 = i) = some (k, i9, pre)) :
    ((coulomb_contribution m1 m2 m3 m4 l) i).rval
      = ((pre0 l m1 : ℝ) * pre * (gauntNormRad l k (-m1) (m1 - m4) m4).rval) *
        ((pre0 l m3 : ℝ) * pre * (gauntNormRad l k (-m3) (m3 - m2) m2).rval) := by
  rw [coulomb_contribution_some l i k i9 pre m1 m2 m3 m4 hfind,
    Rad.rval_mul _ _ (coulT_r_nonneg l k pre (pre0 l m1) (-m1) (m1 - m4) m4),
    coulT_rval, coulT_rval]

/-! ## Concrete Wigner 3j values (l = 1) -/

theorem w3j_101_000 : w3j 1 0 1 0 0 0 = ⟨-1, 1 / 3⟩ := by
  unfold w3j
  rw [if_pos (by decide)]
  have hr : List.range (1 + 0 + 1) = [0, 1] := rfl
  unfold w3jSum
  rw [hr]
  norm_num [negOnePow, factZ, delta3, Nat.factorial, Rad.mk.injEq]

theorem w3j_101_n101 : w3j 1 0 1 (-1) 0 1 = ⟨1 / 2, 4 / 3⟩ := by
  unfold w3j
  rw [if_pos (by decide)]
  have hr : List.range (1 + 0 + 1) = [0, 1] := rfl
  unfold w3jSum
  rw [hr]
  norm_num [negOnePow, factZ, delta3, Nat.factorial, Rad.mk.injEq]

theorem w3j_101_10n1 : w3j 1 0 1 1 0 (-1) = ⟨1 / 2, 4 / 3⟩ := by
  unfold w3j
  rw [if_pos (by decide)]
  have hr : List.range (1 + 0 + 1) = [0, 1] := rfl
  unfold w3jSum
  rw [hr]
  norm_num [negOnePow, factZ, delta3, Nat.factorial, Rad.mk.injEq]

theorem w3j_121_000 : w3j 1 2 1 0 0 0 = ⟨1, 2 / 15⟩ := by
  unfold w3j
  rw [if_pos (by decide)]
  have hr : List.range (1 + 2 + 1) = [0, 1, 2, 3] := rfl
  unfold w3jSum
  rw [hr]
  norm_num [negOnePow, factZ, delta3, Nat.factorial, Rad.mk.injEq]

theorem w3j_121_n101 : w3j 1 2 1 (-1) 0 1 = ⟨1 / 4, 8 / 15⟩ := by
  unfold w3j
  rw [if_pos (by decide)]
  have hr : List.range (1 + 2 + 1) = [0, 1, 2, 3] := rfl
  unfold w3jSum
  rw [hr]
  norm_num [negOnePow, factZ, delta3, Nat.factorial, Rad.mk.injEq]

theorem w3j_121_10n1 : w3j 1 2 1 1 0 (-1) = ⟨1 / 4, 8 / 15⟩ := by
  unfold w3j
  rw [if_pos (by decide)]
  have hr : List.range (1 + 2 + 1) = [0, 1, 2, 3] := rfl
  unfold w3jSum
  rw [hr]
  norm_num [negOnePow, factZ, delta3, Nat.factorial, Rad.mk.injEq]

theorem w3j_121_n110 : w3j 1 2 1 (-1) 1 0 = ⟨-1 / 2, 2 / 5⟩ := by
  unfold w3j
  rw [if_pos (by decide)]
  have hr : List.range (1 + 2 + 1) = [0, 1, 2, 3] := rfl
  unfold w3jSum
  rw [hr]
  norm_num [negOnePow, factZ, delta3, Nat.factorial, Rad.mk.injEq]

theorem w3j_121_01n1 : w3j 1 2 1 0 1 (-1) = ⟨-1 / 2, 2 / 5⟩ := by
  unfold w3j
  rw [if_pos (by decide)]
  have hr : List.range (1 + 2 + 1) = [0, 1, 2, 3] := rfl
  unfold w3jSum
  rw [hr]
  norm_num [negOnePow, factZ, delta3, Nat.factorial, Rad.mk.injEq]

theorem w3j_121_0n11 : w3j 1 2 1 0 (-1) 1 = ⟨-1 / 2, 2 / 5⟩ := by
  unfold w3j
  rw [if_pos (by decide)]
  have hr : List.range (1 + 2 + 1) = [0, 1, 2, 3] := rfl
  unfold w3jSum
  rw [hr]
  norm_num [negOnePow, factZ, delta3, Nat.factorial, Rad.mk.injEq]

theorem w3j_121_1n10 : w3j 1 2 1 1 (-1) 0 = ⟨-1 / 2, 2 / 5⟩ := by
  unfold w3j
  rw [if_pos (by decide)]
  have hr : List.range (1 + 2 + 1) = [0, 1, 2, 3] := rfl
  unfold w3jSum
  rw [hr]
  norm_num [negOnePow, factZ, delta3, Nat.factorial, Rad.mk.injEq]

theorem w3j_121_n12n1 : w3j 1 2 1 (-1) 2 (-1) = ⟨1 / 4, 16 / 5⟩ := by
  unfold w3j
  rw [if_pos (by decide)]
  have hr : List.range (1 + 2 + 1) = [0, 1, 2, 3] := rfl
  unfold w3jSum
  rw [hr]
  norm_num [negOnePow, factZ, delta3, Nat.factorial, Rad.mk.injEq]

theorem w3j_121_1n21 : w3j 1 2 1 1 (-2) 1 = ⟨1 / 4, 16 / 5⟩ := by
  unfold w3j
  rw [if_pos (by decide)]
  have hr : List.range (1 + 2 + 1) = [0, 1, 2, 3] := rfl
  unfold w3jSum
  rw [hr]
  norm_num [negOnePow, factZ, delta3, Nat.factorial, Rad.mk.injEq]

/-! ## Concrete evaluator values at l = 1 -/

theorem gauntNormRad_000_rval : (gauntNormRad 1 2 0 0 0).rval = 2 / 5 := by
  unfold gauntNormRad
  rw [w3j_121_000]
  rw [show Rad.mul ⟨1, 2 / 15⟩ ⟨1, 2 / 15⟩ = ⟨1, 4 / 225⟩ from by
    norm_num [Rad.mul, Rad.mk.injEq]]
  rw [Rad.rval_smul, Rad.rval_of_sq ⟨1, 4 / 225⟩ (2 / 15) (by norm_num) (by norm_num)]
  norm_num

theorem spec_val_p0000 : coulombSpecCoeff 1 1 0 0 0 0 = 4 / 5 := by
  rw [coulombSpecCoeff_some 1 1 2 1 5 0 0 0 0 (by decide)]
  have hb := gauntNormRad_eq_sqrt_gauntR 1 2 0 0 0
  rw [gauntNormRad_000_rval] at hb
  have hs : Real.sqrt (4 * Real.pi) ≠ 0 := by positivity
  have hsq : Real.sqrt (4 * Real.pi) * Real.sqrt (4 * Real.pi) = 4 * Real.pi :=
    Real.mul_self_sqrt (by positivity)
  have hspec0 : specPre 0 = 1 := by norm_num [specPre]
  have hg : gauntR 1 2 1 0 0 0 / Real.sqrt (2 * (2 : ℕ) + 1)
      = (2 / 5) / Real.sqrt (4 * Real.pi) := by
    rw [eq_div_iff hs, ← hb]
    ring
  simp only [neg_zero, sub_zero, hspec0, hg]
  rw [← hsq]
  field_simp
  ring

theorem coulomb_pair_p0000 : (coulomb_contribution 0 0 0 0 1) 1 = ⟨225, 16 / 50625⟩ := by
  rw [coulomb_contribution_some 1 1 2 1 5 0 0 0 0 (by decide)]
  norm_num [coulT, gauntNormRad, Rad.mul, Rad.smul, pre0, w3j_121_000, Rad.mk.injEq]

theorem code_val_p0000 : ((coulomb_contribution 0 0 0 0 1) 1).rval = 4 := by
  rw [coulomb_pair_p0000,
    Rad.rval_of_sq ⟨225, 16 / 50625⟩ (4 / 225) (by norm_num) (by norm_num)]
  norm_num

theorem sqrt_rat_scale (a b d : ℚ) (h : a = b * d ^ 2) (hb : 0 ≤ b) (hd : 0 ≤ d) :
    Real.sqrt (a : ℝ) = (d : ℝ) * Real.sqrt (b : ℝ) := by
  have hcast : ((a : ℝ)) = (b : ℝ) * ((d : ℝ)) ^ 2 := by
    exact_mod_cast congrArg (fun q : ℚ => (q : ℝ)) h
  rw [hcast, Real.sqrt_mul' ((b : ℝ)) (sq_nonneg (d : ℝ)),
    Real.sqrt_sq (by exact_mod_cast hd)]
  ring

theorem coulomb_pair_irr : (coulomb_contribution (-1) (-1) 1 0 1) 1 = ⟨-225 / 8, 128 / 5625⟩ := by
  rw [coulomb_contribution_some 1 1 2 1 5 (-1) (-1) 1 0 (by decide)]
  norm_num [coulT, gauntNormRad, Rad.mul, Rad.smul, pre0, w3j_121_000, w3j_121_1n10,
    w3j_121_n12n1, Rad.mk.injEq]

theorem code_val_irr : ((coulomb_contribution (-1) (-1) 1 0 1) 1).rval
    = ((-3 : ℚ) : ℝ) * Real.sqrt 2 := by
  rw [coulomb_pair_irr]
  unfold Rad.rval
  rw [sqrt_rat_scale (128 / 5625) 2 (8 / 75) (by norm_num) (by norm_num) (by norm_num)]
  push_cast
  ring

/-! ## Two enumerated configurations never differ in exactly one state -/

theorem counterSub_singleton_impossible (c1 c2 : Config)
    (hml : (c1.map Prod.fst).sum = (c2.map Prod.fst).sum)
    (hms : (c1.map Prod.snd).sum = (c2.map Prod.snd).sum)
    (r a : State)
    (h1 : counterSub c1 c2 = [r]) (h2 : counterSub c2 c1 = [a]) : False := by
  have hm1 : ({r} : Multiset State) = (c1 : Multiset State) - (c2 : Multiset State) := by
    rw [← counterSub_coe c1 c2, h1]
    rfl
  have hm2 : ({a} : Multiset State) = (c2 : Multiset State) - (c1 : Multiset State) := by
    rw [← counterSub_coe c2 c1, h2]
    rfl
  have e1 : (c1 : Multiset State)
      = {r} + ((c1 : Multiset State) ∩ (c2 : Multiset State)) := by
    conv_lhs => rw [← Multiset.sub_add_inter (c1 : Multiset State) (c2 : Multiset State)]
    rw [← hm1]
  have e2 : (c2 : Multiset State)
      = {a} + ((c1 : Multiset State) ∩ (c2 : Multiset State)) := by
    conv_lhs => rw [← Multiset.sub_add_inter (c2 : Multiset State) (c1 : Multiset State)]
    rw [← hm2, Multiset.inter_comm]
  have hsum1 : ∀ (f : State → ℤ), (c1.map f).sum + f a = (c2.map f).sum + f r := by
    intro f
    have t1 := congrArg (fun s : Multiset State => (s.map f).sum) e1
    have t2 := congrArg (fun s : Multiset State => (s.map f).sum) e2
    simp only [Multiset.map_add, Multiset.sum_add, Multiset.map_singleton,
      Multiset.sum_singleton, Multiset.map_coe, Multiset.sum_coe] at t1 t2
    omega
  have hsum2 : ∀ (f : State → ℚ), (c1.map f).sum + f a = (c2.map f).sum + f r := by
    intro f
    have t1 := congrArg (fun s : Multiset State => (s.map f).sum) e1
    have t2 := congrArg (fun s : Multiset State => (s.map f).sum) e2
    simp only [Multiset.map_add, Multiset.sum_add, Multiset.map_singleton,
      Multiset.sum_singleton, Multiset.map_coe, Multiset.sum_coe] at t1 t2
    linarith
  have hfst : r.1 = a.1 := by
    have := hsum1 Prod.fst
    omega
  have hsnd : r.2 = a.2 := by
    have := hsum2 Prod.snd
    linarith [hms]
  have hra : r = a := Prod.ext hfst hsnd
  subst hra
  have hc1 : Multiset.count r (({r} : Multiset State)) = 1 := by simp
  rw [hm1, Multiset.count_sub] at hc1
  have hc2 : Multiset.count r (({r} : Multiset State)) = 1 := by simp
  rw [hm2, Multiset.count_sub] at hc2
  omega

/-! ## Exchange symmetry of the 3j factors, by re-indexing the Racah sum -/

theorem negOnePow_add (a b : ℤ) : negOnePow (a + b) = negOnePow a * negOnePow b := by
  unfold negOnePow
  by_cases ha : a % 2 = 0 <;> by_cases hb : b % 2 = 0
  · rw [if_pos ha, if_pos hb, if_pos (by omega)]; ring
  · rw [if_pos ha, if_neg hb, if_neg (by omega)]; ring
  · rw [if_neg ha, if_pos hb, if_neg (by omega)]; ring
  · rw [if_neg ha, if_neg hb, if_pos (by omega)]; ring

theorem negOnePow_congr (a b : ℤ) (h : a % 2 = b % 2) : negOnePow a = negOnePow b := by
  unfold negOnePow
  by_cases ha : a % 2 = 0
  · rw [if_pos ha, if_pos (by omega)]
  · rw [if_neg ha, if_neg (by omega)]

theorem list_range_map_sum {M : Type} [AddCommMonoid M] (n : ℕ) (f : ℕ → M) :
    ((List.range n).map f).sum = ∑ t ∈ Finset.range n, f t := by
  induction n with
  | zero => simp
  | succ m ih =>
    rw [Finset.sum_range_succ, List.range_succ, List.map_append, List.sum_append, ih]
    simp

theorem w3jSum_eq_zsum (l k : ℕ) (x y : ℤ) :
    w3jSum l k l (-x) (x - y)
      = ∑ t ∈ Finset.Icc (0 : ℤ) ((l : ℤ) + k), w3jTermZ l k x y t := by
  unfold w3jSum
  rw [list_range_map_sum]
  refine Finset.sum_nbij' (fun t : ℕ => (t : ℤ)) (fun t : ℤ => t.toNat) ?_ ?_ ?_ ?_ ?_
  · intro t ht
    simp only [Finset.mem_range] at ht
    simp only [Finset.mem_Icc]
    omega
  · intro t ht
    simp only [Finset.mem_Icc] at ht
    simp only [Finset.mem_range]
    omega
  · intro t _
    simp
  · intro t ht
    simp only [Finset.mem_Icc] at ht
    simp only [Int.toNat_of_nonneg ht.1]
  · intro t _
    simp only []
    unfold w3jTermZ
    have e1 : ((l : ℤ) + k - l - t) = (k : ℤ) - t := by ring
    have e2 : ((l : ℤ) - -x - t) = (l : ℤ) + x - t := by ring
    have e3 : ((k : ℤ) + (x - y) - t) = (k : ℤ) + x - y - t := by ring
    have e4 : ((l : ℤ) - k + -x + t) = (l : ℤ) - k - x + t := by ring
    have e5 : ((l : ℤ) - l - (x - y) + t) = y - x + t := by ring
    simp only [e1, e2, e3, e4, e5]
    have ht0 : (0 : ℤ) ≤ (t : ℤ) := Int.natCast_nonneg t
    by_cases hcond : 0 ≤ (k : ℤ) - t ∧ 0 ≤ (l : ℤ) + x - t ∧ 0 ≤ (k : ℤ) + x - y - t ∧
        0 ≤ (l : ℤ) - k - x + t ∧ 0 ≤ y - x + t
    · rw [if_pos hcond, if_pos ⟨ht0, hcond.1, hcond.2.1, hcond.2.2.1, hcond.2.2.2.1,
        hcond.2.2.2.2⟩]
    · rw [if_neg hcond, if_neg (by tauto)]

theorem negOnePow_sq (z : ℤ) : negOnePow z ^ 2 = 1 := by
  unfold negOnePow
  split <;> norm_num

theorem w3jTermZ_shift (l k : ℕ) (x y t : ℤ) :
    w3jTermZ l k y x t = negOnePow (x - y) * w3jTermZ l k x y (t + (x - y)) := by
  unfold w3jTermZ
  have e1 : ((k : ℤ) - (t + (x - y))) = (k : ℤ) + y - x - t := by ring
  have e2 : ((l : ℤ) + x - (t + (x - y))) = (l : ℤ) + y - t := by ring
  have e3 : ((k : ℤ) + x - y - (t + (x - y))) = (k : ℤ) - t := by ring
  have e4 : ((l : ℤ) - k - x + (t + (x - y))) = (l : ℤ) - k - y + t := by ring
  have e5 : (y - x + (t + (x - y))) = t := by ring
  rw [e1, e2, e3, e4, e5]
  by_cases h1 : 0 ≤ t ∧ 0 ≤ (k : ℤ) - t ∧ 0 ≤ (l : ℤ) + y - t ∧ 0 ≤ (k : ℤ) + y - x - t ∧
      0 ≤ (l : ℤ) - k - y + t ∧ 0 ≤ x - y + t
  · rw [if_pos h1, if_pos (by omega)]
    rw [show (t + (x - y)) = (x - y) + t from by ring, negOnePow_add]
    have key : ∀ b D : ℚ, negOnePow (x - y) * (negOnePow (x - y) * b / D) = b / D := by
      intro b D
      have h2 : negOnePow (x - y) * (negOnePow (x - y) * b / D)
          = (negOnePow (x - y)) ^ 2 * (b / D) := by ring
      rw [h2, negOnePow_sq, one_mul]
    rw [key]
    ring
  · rw [if_neg h1, if_neg (by omega)]
    ring

theorem w3jTermZ_support (l k : ℕ) (x y t : ℤ)
    (h : ¬(0 ≤ t ∧ t ≤ (k : ℤ) ∧ y - x + t ≥ 0 ∧ t ≤ (k : ℤ) + x - y)) :
    w3jTermZ l k x y t = 0 := by
  unfold w3jTermZ
  rw [if_neg (by omega)]

theorem zsum_swap (l k : ℕ) (x y : ℤ) (hx : x.natAbs ≤ l) (hy : y.natAbs ≤ l) :
    ∑ t ∈ Finset.Icc (0 : ℤ) ((l : ℤ) + k), w3jTermZ l k y x t
      = negOnePow (x - y) * ∑ t ∈ Finset.Icc (0 : ℤ) ((l : ℤ) + k), w3jTermZ l k x y t := by
  have hshift : ∑ t ∈ Finset.Icc (0 : ℤ) ((l : ℤ) + k), w3jTermZ l k y x t
      = ∑ t ∈ Finset.Icc (0 : ℤ) ((l : ℤ) + k),
          negOnePow (x - y) * w3jTermZ l k x y (t + (x - y)) :=
    Finset.sum_congr rfl fun t _ => w3jTermZ_shift l k x y t
  rw [hshift, ← Finset.mul_sum]
  congr 1
  -- re-index t |-> t + (x - y) and compare supports inside a common window
  have hreidx : ∑ t ∈ Finset.Icc (0 : ℤ) ((l : ℤ) + k), w3jTermZ l k x y (t + (x - y))
      = ∑ t ∈ Finset.Icc ((x - y) : ℤ) ((l : ℤ) + k + (x - y)), w3jTermZ l k x y t := by
    refine Finset.sum_nbij' (fun t : ℤ => t + (x - y)) (fun t : ℤ => t - (x - y))
      ?_ ?_ ?_ ?_ ?_
    · intro t ht
      simp only [Finset.mem_Icc] at ht
      simp only [Finset.mem_Icc]
      omega
    · intro t ht
      simp only [Finset.mem_Icc] at ht
      simp only [Finset.mem_Icc]
      omega
    · intro t _
      ring
    · intro t _
      ring
    · intro t _
      simp only []
  rw [hreidx]
  -- both index sets contain the support of the summand
  have hW1 : Finset.Icc ((x - y) : ℤ) ((l : ℤ) + k + (x - y))
      ⊆ Finset.Icc (-(2 * (l : ℤ))) ((l : ℤ) + k + 2 * l) := by
    intro t ht
    simp only [Finset.mem_Icc] at ht
    simp only [Finset.mem_Icc]
    omega
  have hW2 : Finset.Icc (0 : ℤ) ((l : ℤ) + k)
      ⊆ Finset.Icc (-(2 * (l : ℤ))) ((l : ℤ) + k + 2 * l) := by
    intro t ht
    simp only [Finset.mem_Icc] at ht
    simp only [Finset.mem_Icc]
    omega
  rw [Finset.sum_subset hW1 ?h1, Finset.sum_subset hW2 ?h2]
  case h1 =>
    intro t _ hnot
    simp only [Finset.mem_Icc] at hnot
    refine w3jTermZ_support l k x y t ?_
    omega
  case h2 =>
    intro t _ hnot
    simp only [Finset.mem_Icc] at hnot
    refine w3jTermZ_support l k x y t ?_
    omega

theorem w3jS_swap (l k : ℕ) (x y : ℤ) (hx : x.natAbs ≤ l) (hy : y.natAbs ≤ l) :
    negOnePow ((l : ℤ) - k - y) * w3jSum l k l (-x) (x - y)
      = negOnePow ((l : ℤ) - k - x) * w3jSum l k l (-y) (y - x) := by
  rw [w3jSum_eq_zsum l k x y, w3jSum_eq_zsum l k y x, zsum_swap l k x y hx hy]
  rw [← mul_assoc, ← negOnePow_add]
  congr 2
  ring

/-- The exchange symmetry of the 3j factors of the evaluator:
w3j(l, k, l; -x, x-y, y) = w3j(l, k, l; -y, y-x, x), as represented pairs
(negating all three magnetic numbers and then swapping the outer columns
multiplies the symbol by ((-1)^(2l+k))^2 = 1; the two sides even agree
radicand-for-radicand). -/
theorem w3j_swap (l k : ℕ) (x y : ℤ) :
    w3j l k l (-x) (x - y) y = w3j l k l (-y) (y - x) x := by
  unfold w3j
  by_cases hg : (-x) + (x - y) + y = 0 ∧ (-x).natAbs ≤ l ∧ (x - y).natAbs ≤ k ∧
      y.natAbs ≤ l ∧ l ≤ l + k ∧ l ≤ k + l ∧ k ≤ l + l
  · have hg2 : (-y) + (y - x) + x = 0 ∧ (-y).natAbs ≤ l ∧ (y - x).natAbs ≤ k ∧
        x.natAbs ≤ l ∧ l ≤ l + k ∧ l ≤ k + l ∧ k ≤ l + l := by
      obtain ⟨g1, g2, g3, g4, g5, g6, g7⟩ := hg
      refine ⟨by ring, by omega, by omega, by omega, g5, g6, g7⟩
    rw [if_pos hg, if_pos hg2]
    have hx : x.natAbs ≤ l := by
      have := hg.2.1
      omega
    have hy : y.natAbs ≤ l := hg.2.2.2.1
    have hC : negOnePow ((l : ℤ) - k - y) * w3jSum l k l (-x) (x - y)
        = negOnePow ((l : ℤ) - k - x) * w3jSum l k l (-y) (y - x) :=
      w3jS_swap l k x y hx hy
    have e1 : ((l : ℤ) + -x) = (l : ℤ) - x := by ring
    have e2 : ((l : ℤ) - -x) = (l : ℤ) + x := by ring
    have e3 : ((l : ℤ) + -y) = (l : ℤ) - y := by ring
    have e4 : ((l : ℤ) - -y) = (l : ℤ) + y := by ring
    have e5 : ((k : ℤ) + (x - y)) = (k : ℤ) - (y - x) := by ring
    have e6 : ((k : ℤ) - (x - y)) = (k : ℤ) + (y - x) := by ring
    rw [Rad.mk.injEq]
    constructor
    · exact hC
    · rw [e1, e2, e3, e4, e5, e6]
      ring
  · have hg2 : ¬((-y) + (y - x) + x = 0 ∧ (-y).natAbs ≤ l ∧ (y - x).natAbs ≤ k ∧
        x.natAbs ≤ l ∧ l ≤ l + k ∧ l ≤ k + l ∧ k ≤ l + l) := by
      intro hcon
      obtain ⟨g1, g2, g3, g4, g5, g6, g7⟩ := hcon
      exact hg ⟨by ring, by omega, by omega, by omega, g5, g6, g7⟩
    rw [if_neg hg, if_neg hg2]

/-! ## Reversal symmetries of the integral evaluator -/

theorem kList_eq_nil (l : ℕ) (h1 : l ≠ 1) (h2 : l ≠ 2) (h3 : l ≠ 3) : kList l = [] := by
  match l with
  | 0 => rfl
  | 1 => exact absurd rfl h1
  | 2 => exact absurd rfl h2
  | 3 => exact absurd rfl h3
  | n + 4 => rfl

theorem pre0_eq_negOnePow (l : ℕ) (hl : l = 1 ∨ l = 2 ∨ l = 3) (m : ℤ)
    (hm : m.natAbs ≤ l) : pre0 l m = negOnePow m := by
  rcases hl with rfl | rfl | rfl
  · have hlo : (-1 : ℤ) ≤ m := by omega
    have hhi : m ≤ 1 := by omega
    interval_cases m <;> norm_num [pre0, negOnePow]
  · have hlo : (-2 : ℤ) ≤ m := by omega
    have hhi : m ≤ 2 := by omega
    interval_cases m <;> norm_num [pre0, negOnePow]
  · have hlo : (-3 : ℤ) ≤ m := by omega
    have hhi : m ≤ 3 := by omega
    interval_cases m <;> norm_num [pre0, negOnePow]

theorem w3j_bounds_of_c_ne (j1 j2 j3 : ℕ) (a b c : ℤ)
    (h : (w3j j1 j2 j3 a b c).c ≠ 0) :
    a.natAbs ≤ j1 ∧ b.natAbs ≤ j2 ∧ c.natAbs ≤ j3 := by
  unfold w3j at h
  split at h
  case isTrue hg => exact ⟨hg.2.1, hg.2.2.1, hg.2.2.2.1⟩
  case isFalse => simp [Rad.zero] at h

theorem mul_sign_transfer (a b a2 b2 u v : ℚ) (h : a * b = a2 * b2) :
    a * u * (b * v) = a2 * u * (b2 * v) := by
  calc a * u * (b * v) = a * b * (u * v) := by ring
    _ = a2 * b2 * (u * v) := by rw [h]
    _ = a2 * u * (b2 * v) := by ring

/-- Reversal symmetry of the evaluator: when m1+m2+m3+m4 is even,
coulomb_contribution(m1,m2,m3,m4,l) = coulomb_contribution(m4,m3,m2,m1,l),
coefficient by coefficient at the level of represented pairs. -/
theorem coulomb_swap_rev (l : ℕ) (m1 m2 m3 m4 : ℤ)
    (hpar : (m1 + m2 + m3 + m4) % 2 = 0) (i : Fin 4) :
    (coulomb_contribution m1 m2 m3 m4 l) i = (coulomb_contribution m4 m3 m2 m1 l) i := by
  unfold coulomb_contribution
  rcases hfind : (kList l).find? (fun e => e.2.1 = i) with _ | ⟨k, i9, pre⟩ <;>
    simp only [hfind]
  have hl : l = 1 ∨ l = 2 ∨ l = 3 := by
    by_contra hcon
    push_neg at hcon
    rw [kList_eq_nil l hcon.1 hcon.2.1 hcon.2.2] at hfind
    simp at hfind
  unfold coulT gauntNormRad
  rw [w3j_swap l k m4 m1, w3j_swap l k m2 m3]
  simp only [Rad.smul, Rad.mul, Rad.mk.injEq]
  refine ⟨?_, by ring⟩
  by_cases hA : (w3j l k l (-m1) (m1 - m4) m4).c = 0
  · rw [hA]; ring
  by_cases hB : (w3j l k l (-m3) (m3 - m2) m2).c = 0
  · rw [hB]; ring
  obtain ⟨hA1, hA2, hA3⟩ := w3j_bounds_of_c_ne l k l (-m1) (m1 - m4) m4 hA
  obtain ⟨hB1, hB2, hB3⟩ := w3j_bounds_of_c_ne l k l (-m3) (m3 - m2) m2 hB
  have p1 : pre0 l m1 = negOnePow m1 := pre0_eq_negOnePow l hl m1 (by omega)
  have p2 : pre0 l m2 = negOnePow m2 := pre0_eq_negOnePow l hl m2 (by omega)
  have p3 : pre0 l m3 = negOnePow m3 := pre0_eq_negOnePow l hl m3 (by omega)
  have p4 : pre0 l m4 = negOnePow m4 := pre0_eq_negOnePow l hl m4 (by omega)
  rw [p1, p2, p3, p4]
  have hneg : negOnePow m1 * pre * (negOnePow m3 * pre)
      = negOnePow m4 * pre * (negOnePow m2 * pre) := by
    have hn : negOnePow m1 * negOnePow m3 = negOnePow m4 * negOnePow m2 := by
      rw [← negOnePow_add, ← negOnePow_add]
      exact negOnePow_congr _ _ (by omega)
    linear_combination (pre * pre) * hn
  exact mul_sign_transfer _ _ _ _ _ _ hneg

theorem mul_sign_transfer2 (a b a2 b2 u v : ℚ) (h : a * b = a2 * b2) :
    a * u * (b * v) = a2 * v * (b2 * u) := by
  calc a * u * (b * v) = a * b * (u * v) := by ring
    _ = a2 * b2 * (u * v) := by rw [h]
    _ = a2 * v * (b2 * u) := by ring

/-- Pair-exchange symmetry of the evaluator: when m1+m2+m3+m4 is even,
coulomb_contribution(m1,m2,m3,m4,l) = coulomb_contribution(m2,m1,m4,m3,l). -/
theorem coulomb_swap_pairs (l : ℕ) (m1 m2 m3 m4 : ℤ)
    (hpar : (m1 + m2 + m3 + m4) % 2 = 0) (i : Fin 4) :
    (coulomb_contribution m1 m2 m3 m4 l) i = (coulomb_contribution m2 m1 m4 m3 l) i := by
  unfold coulomb_contribution
  rcases hfind : (kList l).find? (fun e => e.2.1 = i) with _ | ⟨k, i9, pre⟩ <;>
    simp only [hfind]
  have hl : l = 1 ∨ l = 2 ∨ l = 3 := by
    by_contra hcon
    push_neg at hcon
    rw [kList_eq_nil l hcon.1 hcon.2.1 hcon.2.2] at hfind
    simp at hfind
  unfold coulT gauntNormRad
  rw [w3j_swap l k m2 m3, w3j_swap l k m4 m1]
  simp only [Rad.smul, Rad.mul, Rad.mk.injEq]
  refine ⟨?_, by ring⟩
  by_cases hA : (w3j l k l (-m1) (m1 - m4) m4).c = 0
  · rw [hA]; ring
  by_cases hB : (w3j l k l (-m3) (m3 - m2) m2).c = 0
  · rw [hB]; ring
  obtain ⟨hA1, hA2, hA3⟩ := w3j_bounds_of_c_ne l k l (-m1) (m1 - m4) m4 hA
  obtain ⟨hB1, hB2, hB3⟩ := w3j_bounds_of_c_ne l k l (-m3) (m3 - m2) m2 hB
  have p1 : pre0 l m1 = negOnePow m1 := pre0_eq_negOnePow l hl m1 (by omega)
  have p2 : pre0 l m2 = negOnePow m2 := pre0_eq_negOnePow l hl m2 (by omega)
  have p3 : pre0 l m3 = negOnePow m3 := pre0_eq_negOnePow l hl m3 (by omega)
  have p4 : pre0 l m4 = negOnePow m4 := pre0_eq_negOnePow l hl m4 (by omega)
  rw [p1, p2, p3, p4]
  have hneg : negOnePow m1 * pre * (negOnePow m3 * pre)
      = negOnePow m2 * pre * (negOnePow m4 * pre) := by
    have hn : negOnePow m1 * negOnePow m3 = negOnePow m2 * negOnePow m4 := by
      rw [← negOnePow_add, ← negOnePow_add]
      exact negOnePow_congr _ _ (by omega)
    linear_combination (pre * pre) * hn
  exact mul_sign_transfer2 _ _ _ _ _ _ hneg

/-! ## Indexing lemmas for the assignment search -/

theorem findIdx_lt {α : Type} [DecidableEq α] (u : List α) (x : α) (hx : x ∈ u) :
    u.findIdx (fun y => y = x) < u.length :=
  List.findIdx_lt_length_of_exists ⟨x, hx, by simp⟩

theorem getElem_findIdx_self {α : Type} [DecidableEq α] (u : List α) (x : α) (hx : x ∈ u)
    (hb : u.findIdx (fun y => y = x) < u.length) :
    u[u.findIdx fun y => y = x] = x := by
  have h := @List.findIdx_getElem _ (fun y => decide (y = x)) u hb
  simpa using h

theorem findIdx_eq_of_nodup {α : Type} [DecidableEq α] (u : List α) (hnd : u.Nodup)
    (i : ℕ) (hi : i < u.length) (x : α) (hx : u[i] = x) :
    u.findIdx (fun y => y = x) = i := by
  rw [List.findIdx_eq hi]
  refine ⟨by simp [hx], ?_⟩
  intro j hji
  have hj : j < u.length := lt_trans hji hi
  simp only [decide_eq_false_iff_not]
  intro hcon
  have hij : u[j] = u[i] := by rw [hx, hcon]
  have := (List.Nodup.getElem_inj_iff hnd).1 hij
  omega

theorem getD_map_lt {α β : Type} [Inhabited β] (l : List α) (f : α → β) (i : ℕ)
    (hi : i < l.length) (d : β) : (l.map f).getD i d = f l[i] := by
  rw [List.getD_eq_getElem (l.map f) d (by simpa using hi)]
  simp

/-- Replacing the element at a position changes the underlying multiset by
removing that element and adding the new one. -/
theorem toMultiset_set {α : Type} [DecidableEq α] (l : List α) (i : ℕ) (v : α)
    (h : i < l.length) :
    ((l.set i v : List α) : Multiset α) + {l[i]} = (l : Multiset α) + {v} := by
  ext x
  simp only [Multiset.count_add, Multiset.coe_count, Multiset.count_singleton]
  rw [List.count_set v x l i h]
  have hmem : l[i] ∈ l := List.getElem_mem h
  by_cases hx1 : l[i] = x
  · have hpos : 1 ≤ Multiset.count x (l : Multiset α) := by
      rw [← hx1]
      exact Multiset.one_le_count_iff_mem.2 (Multiset.mem_coe.2 hmem)
    rw [Multiset.coe_count] at hpos
    by_cases hx2 : v = x
    · simp only [hx1, hx2, beq_self_eq_true, if_true, if_pos rfl]
      omega
    · simp only [hx1, beq_self_eq_true, if_true, beq_iff_eq, hx2, if_false,
        if_neg (Ne.symm hx2), if_pos rfl]
      omega
  · by_cases hx2 : v = x
    · simp only [beq_iff_eq, hx1, hx2, if_false, if_true, if_neg (Ne.symm hx1),
        if_pos rfl]
      omega
    · simp only [beq_iff_eq, hx1, hx2, if_false, if_neg (Ne.symm hx1),
        if_neg (Ne.symm hx2)]
      omega

/-- Inverse permutations (as image lists) have the same number of
inversions, hence the same signature. -/
theorem invCount_inverse (p q : List ℕ) (n : ℕ) (hp : p.length = n) (hq : q.length = n)
    (hpn : ∀ i, i < n → p.getD i 0 < n) (hqn : ∀ i, i < n → q.getD i 0 < n)
    (hpq : ∀ i, i < n → p.getD (q.getD i 0) 0 = i)
    (hqp : ∀ i, i < n → q.getD (p.getD i 0) 0 = i) :
    invCount p = invCount q := by
  unfold invCount
  rw [hp, hq]
  refine Finset.card_nbij' (fun ij => (p.getD ij.2 0, p.getD ij.1 0))
    (fun ij => (q.getD ij.2 0, q.getD ij.1 0)) ?_ ?_ ?_ ?_
  · intro ij hij
    simp only [Finset.mem_filter, Finset.mem_product, Finset.mem_range] at hij
    obtain ⟨⟨hi, hj⟩, hlt, hval⟩ := hij
    simp only [Finset.mem_filter, Finset.mem_product, Finset.mem_range]
    refine ⟨⟨hpn ij.2 hj, hpn ij.1 hi⟩, hval, ?_⟩
    rw [hqp ij.1 hi, hqp ij.2 hj]
    exact hlt
  · intro ij hij
    simp only [Finset.mem_filter, Finset.mem_product, Finset.mem_range] at hij
    obtain ⟨⟨hi, hj⟩, hlt, hval⟩ := hij
    simp only [Finset.mem_filter, Finset.mem_product, Finset.mem_range]
    refine ⟨⟨hqn ij.2 hj, hqn ij.1 hi⟩, hval, ?_⟩
    rw [hpq ij.1 hi, hpq ij.2 hj]
    exact hlt
  · intro ij hij
    simp only [Finset.mem_filter, Finset.mem_product, Finset.mem_range] at hij
    obtain ⟨⟨hi, hj⟩, _, _⟩ := hij
    simp only [hqp ij.1 hi, hqp ij.2 hj]
  · intro ij hij
    simp only [Finset.mem_filter, Finset.mem_product, Finset.mem_range] at hij
    obtain ⟨⟨hi, hj⟩, _, _⟩ := hij
    simp only [hpq ij.1 hi, hpq ij.2 hj]

/-! ## The trial list of the assignment search -/

theorem length_set2 {α : Type} (l : List α) (i0 i1 : ℕ) (u v : α) :
    ((l.set i0 u).set i1 v).length = l.length := by simp

theorem trial_getD (c1 : Config) (hnd : c1.Nodup) (r0 r1 u v : State)
    (hr01 : r0 ≠ r1) (hr0 : r0 ∈ c1) (hr1 : r1 ∈ c1)
    (j : ℕ) (hj : j < c1.length) :
    ((c1.set (c1.findIdx fun y => y = r0) u).set (c1.findIdx fun y => y = r1) v).getD j (0, 0)
      = if c1.getD j (0, 0) = r0 then u else if c1.getD j (0, 0) = r1 then v
        else c1.getD j (0, 0) := by
  have hi0 : c1.findIdx (fun y => y = r0) < c1.length := findIdx_lt c1 r0 hr0
  have hi1 : c1.findIdx (fun y => y = r1) < c1.length := findIdx_lt c1 r1 hr1
  have hv0 : c1[c1.findIdx fun y => y = r0] = r0 := getElem_findIdx_self c1 r0 hr0 hi0
  have hv1 : c1[c1.findIdx fun y => y = r1] = r1 := getElem_findIdx_self c1 r1 hr1 hi1
  have hne : c1.findIdx (fun y => y = r0) ≠ c1.findIdx (fun y => y = r1) := by
    intro hcon
    apply hr01
    rw [← hv0, ← hv1]
    congr 1
  rw [List.getD_eq_getElem _ _ (by simpa using hj), List.getD_eq_getElem _ _ hj]
  rw [List.getElem_set, List.getElem_set]
  by_cases h0 : c1[j] = r0
  · have he0 : c1.findIdx (fun y => y = r0) = j := findIdx_eq_of_nodup c1 hnd j hj r0 h0
    have he1 : ¬(c1.findIdx (fun y => y = r1) = j) := by
      intro hcon
      exact hne (by rw [he0, hcon])
    rw [if_neg he1, if_pos he0, if_pos h0]
  · have he0 : ¬(c1.findIdx (fun y => y = r0) = j) := by
      intro hcon
      apply h0
      rw [← hv0]
      congr 1
      omega
    by_cases h1 : c1[j] = r1
    · have he1 : c1.findIdx (fun y => y = r1) = j := findIdx_eq_of_nodup c1 hnd j hj r1 h1
      rw [if_pos he1, if_neg h0, if_pos h1]
    · have he1 : ¬(c1.findIdx (fun y => y = r1) = j) := by
        intro hcon
        apply h1
        rw [← hv1]
        congr 1
        omega
      rw [if_neg he1, if_neg he0, if_neg h0, if_neg h1]

theorem trial_coe (c1 : Config) (hnd : c1.Nodup) (r0 r1 u v : State)
    (hr01 : r0 ≠ r1) (hr0 : r0 ∈ c1) (hr1 : r1 ∈ c1) :
    (((c1.set (c1.findIdx fun y => y = r0) u).set (c1.findIdx fun y => y = r1) v : List State) :
        Multiset State) + {r0} + {r1}
      = (c1 : Multiset State) + {u} + {v} := by
  have hi0 : c1.findIdx (fun y => y = r0) < c1.length := findIdx_lt c1 r0 hr0
  have hi1 : c1.findIdx (fun y => y = r1) < c1.length := findIdx_lt c1 r1 hr1
  have hv0 : c1[c1.findIdx fun y => y = r0] = r0 := getElem_findIdx_self c1 r0 hr0 hi0
  have hv1 : c1[c1.findIdx fun y => y = r1] = r1 := getElem_findIdx_self c1 r1 hr1 hi1
  have hne : c1.findIdx (fun y => y = r0) ≠ c1.findIdx (fun y => y = r1) := by
    intro hcon
    apply hr01
    rw [← hv0, ← hv1]
    congr 1
  have step1 : ((c1.set (c1.findIdx fun y => y = r0) u : List State) : Multiset State) + {r0}
      = (c1 : Multiset State) + {u} := by
    have := toMultiset_set c1 (c1.findIdx fun y => y = r0) u hi0
    rwa [hv0] at this
  have step2 : (((c1.set (c1.findIdx fun y => y = r0) u).set
        (c1.findIdx fun y => y = r1) v : List State) : Multiset State) + {r1}
      = ((c1.set (c1.findIdx fun y => y = r0) u : List State) : Multiset State) + {v} := by
    have h := toMultiset_set (c1.set (c1.findIdx fun y => y = r0) u)
      (c1.findIdx fun y => y = r1) v (by simpa using hi1)
    rw [List.getElem_set, if_neg hne, hv1] at h
    exact h
  calc (((c1.set (c1.findIdx fun y => y = r0) u).set (c1.findIdx fun y => y = r1) v :
        List State) : Multiset State) + {r0} + {r1}
      = ((((c1.set (c1.findIdx fun y => y = r0) u).set (c1.findIdx fun y => y = r1) v :
        List State) : Multiset State) + {r1}) + {r0} := by abel
    _ = (((c1.set (c1.findIdx fun y => y = r0) u : List State) : Multiset State) + {v}) + {r0} := by
        rw [step2]
    _ = (((c1.set (c1.findIdx fun y => y = r0) u : List State) : Multiset State) + {r0}) + {v} := by
        abel
    _ = ((c1 : Multiset State) + {u}) + {v} := by rw [step1]

theorem beq_state_instances :
    (instBEqProd : BEq State) = @instBEqOfDecidableEq State inferInstance := by
  have h : (instBEqProd : BEq State).beq = (@instBEqOfDecidableEq State inferInstance).beq := by
    funext a b
    by_cases h : a = b
    · subst h
      have h2 : (@instBEqOfDecidableEq State inferInstance).beq a a = true := by
        simp [instBEqOfDecidableEq]
      rw [h2]
      exact @beq_self_eq_true _ instBEqProd inferInstance a
    · have h1 : (instBEqProd : BEq State).beq a b = false :=
        @beq_eq_false_iff_ne _ instBEqProd inferInstance a b |>.mpr h
      have h2 : (@instBEqOfDecidableEq State inferInstance).beq a b = false := by
        simp [instBEqOfDecidableEq, h]
      rw [h1, h2]
  exact congrArg BEq.mk h

/-- A candidate assignment succeeds whenever the spins match pairwise, the
removed states occur in a duplicate-free state1, and replacing them by the
added states reproduces state2 up to order; the emitted terms carry the
signature of the aligning permutation. -/
theorem tryAssign_success (c1 c2 : Config) (hnd : c1.Nodup) (r0 r1 u v : State)
    (hr01 : r0 ≠ r1) (hr0 : r0 ∈ c1) (hr1 : r1 ∈ c1)
    (hs0 : r0.2 = u.2) (hs1 : r1.2 = v.2)
    (hmul : (c1 : Multiset State) + {u} + {v} = (c2 : Multiset State) + {r0} + {r1}) :
    tryAssign c1 c2 r0 r1 u v = some ((permSign (c2.map fun x =>
        ((c1.set (c1.findIdx fun y => y = r0) u).set (c1.findIdx fun y => y = r1) v).findIdx
          fun y => y = x), TermKind.direct, (r0.1, r1.1, u.1, v.1)) ::
      (if r0.2 = r1.2 then [(permSign (c2.map fun x =>
        ((c1.set (c1.findIdx fun y => y = r0) u).set (c1.findIdx fun y => y = r1) v).findIdx
          fun y => y = x), TermKind.exchange, (r0.1, r1.1, v.1, u.1))] else [])) := by
  have hperm : (((c1.set (c1.findIdx fun y => y = r0) u).set (c1.findIdx fun y => y = r1) v :
      List State) : Multiset State) = (c2 : Multiset State) := by
    have h1 := trial_coe c1 hnd r0 r1 u v hr01 hr0 hr1
    rw [hmul] at h1
    have h2 : (((c1.set (c1.findIdx fun y => y = r0) u).set (c1.findIdx fun y => y = r1) v :
        List State) : Multiset State) + ({r0} + {r1})
        = (c2 : Multiset State) + ({r0} + {r1}) := by
      rw [← add_assoc, ← add_assoc]
      exact h1
    exact add_right_cancel h2
  have hisp : ((c1.set (c1.findIdx fun y => y = r0) u).set (c1.findIdx fun y => y = r1)
      v).isPerm c2 = true := by
    rw [beq_state_instances]
    exact List.isPerm_iff.mpr (Multiset.coe_eq_coe.mp hperm)
  have hf0 : c1.findIdx? (fun y => y = r0) = some (c1.findIdx fun y => y = r0) :=
    List.findIdx?_eq_some_of_exists ⟨r0, hr0, by simp⟩
  have hf1 : c1.findIdx? (fun y => y = r1) = some (c1.findIdx fun y => y = r1) :=
    List.findIdx?_eq_some_of_exists ⟨r1, hr1, by simp⟩
  unfold tryAssign
  rw [if_pos ⟨hs0, hs1⟩, hf0, hf1]
  simp only [hisp, if_true]

/-- The two substitution trials of a matched pair of configurations invert
each other pointwise: if position j of the reverse trial holds state1[i],
then position i of the forward trial holds state2[j]. -/
theorem trial_comp (c1 c2 : Config) (r0 r1 u v : State)
    (hnd1 : c1.Nodup) (hnd2 : c2.Nodup)
    (hr01 : r0 ≠ r1) (huv : u ≠ v)
    (hr0 : r0 ∈ c1) (hr1 : r1 ∈ c1) (hu : u ∈ c2) (hv : v ∈ c2)
    (hr0n : r0 ∉ c2) (hr1n : r1 ∉ c2)
    (i : ℕ) (hi : i < c1.length) (j : ℕ) (hj : j < c2.length)
    (hji : ((c2.set (c2.findIdx fun y => y = u) r0).set (c2.findIdx fun y => y = v) r1).getD
        j (0, 0) = c1.getD i (0, 0)) :
    ((c1.set (c1.findIdx fun y => y = r0) u).set (c1.findIdx fun y => y = r1) v).getD
        i (0, 0) = c2.getD j (0, 0) := by
  rw [trial_getD c1 hnd1 r0 r1 u v hr01 hr0 hr1 i hi]
  rw [trial_getD c2 hnd2 u v r0 r1 huv hu hv j hj] at hji
  have hwmem : c2.getD j (0, 0) ∈ c2 := by
    rw [List.getD_eq_getElem _ _ hj]
    exact List.getElem_mem hj
  by_cases hwu : c2.getD j (0, 0) = u
  · rw [if_pos hwu] at hji
    rw [if_pos hji.symm, hwu]
  · rw [if_neg hwu] at hji
    by_cases hwv : c2.getD j (0, 0) = v
    · rw [if_pos hwv] at hji
      rw [if_neg (by rw [← hji]; exact Ne.symm hr01), if_pos hji.symm, hwv]
    · rw [if_neg hwv] at hji
      have hz0 : ¬(c1.getD i (0, 0) = r0) := by
        rw [← hji]
        intro hcon
        exact hr0n (hcon ▸ hwmem)
      have hz1 : ¬(c1.getD i (0, 0) = r1) := by
        rw [← hji]
        intro hcon
        exact hr1n (hcon ▸ hwmem)
      rw [if_neg hz0, if_neg hz1, hji]

/-- Aligning permutations built from mutually inverse lookup lists have the
same signature: the signatures of a permutation and of its inverse agree. -/
theorem permSign_map_inverse (c1 c2 t1 t2 : Config)
    (ht1nd : t1.Nodup) (ht2nd : t2.Nodup)
    (hlen : c2.length = c1.length)
    (ht1len : t1.length = c1.length) (ht2len : t2.length = c2.length)
    (ht1mem : ∀ x ∈ c2, x ∈ t1) (ht2mem : ∀ x ∈ c1, x ∈ t2)
    (hcomp1 : ∀ i, i < c1.length → ∀ j, j < c2.length →
        t2.getD j (0, 0) = c1.getD i (0, 0) → t1.getD i (0, 0) = c2.getD j (0, 0))
    (hcomp2 : ∀ j, j < c2.length → ∀ i, i < c1.length →
        t1.getD i (0, 0) = c2.getD j (0, 0) → t2.getD j (0, 0) = c1.getD i (0, 0)) :
    permSign (c2.map fun x => t1.findIdx fun y => y = x)
      = permSign (c1.map fun x => t2.findIdx fun y => y = x) := by
  unfold permSign
  congr 1
  refine invCount_inverse _ _ c1.length (by simp [hlen]) (by simp) ?_ ?_ ?_ ?_
  · intro i hi
    have hi2 : i < c2.length := by omega
    rw [getD_map_lt c2 _ i hi2 0]
    have hmem : c2[i] ∈ t1 := ht1mem _ (List.getElem_mem hi2)
    have := findIdx_lt t1 c2[i] hmem
    omega
  · intro i hi
    rw [getD_map_lt c1 _ i hi 0]
    have hmem : c1[i] ∈ t2 := ht2mem _ (List.getElem_mem hi)
    have := findIdx_lt t2 c1[i] hmem
    omega
  · intro i hi
    rw [getD_map_lt c1 _ i hi 0]
    have hjmem : c1[i] ∈ t2 := ht2mem _ (List.getElem_mem hi)
    have hjlt : t2.findIdx (fun y => y = c1[i]) < t2.length := findIdx_lt t2 c1[i] hjmem
    have hjlt2 : t2.findIdx (fun y => y = c1[i]) < c2.length := by omega
    rw [getD_map_lt c2 _ _ hjlt2 0]
    have ht2j : t2[t2.findIdx fun y => y = c1[i]] = c1[i] :=
      getElem_findIdx_self t2 c1[i] hjmem hjlt
    have hcomp := hcomp1 i hi _ hjlt2 (by
      rw [List.getD_eq_getElem _ _ hjlt, List.getD_eq_getElem _ _ hi]
      exact ht2j)
    have hilt : i < t1.length := by omega
    have ht1i : t1[i] = c2[t2.findIdx fun y => y = c1[i]] := by
      rw [List.getD_eq_getElem _ _ hilt, List.getD_eq_getElem _ _ hjlt2] at hcomp
      exact hcomp
    exact findIdx_eq_of_nodup t1 ht1nd i hilt _ ht1i
  · intro i hi
    have hi2 : i < c2.length := by omega
    rw [getD_map_lt c2 _ i hi2 0]
    have hjmem : c2[i] ∈ t1 := ht1mem _ (List.getElem_mem hi2)
    have hjlt : t1.findIdx (fun y => y = c2[i]) < t1.length := findIdx_lt t1 c2[i] hjmem
    have hjlt2 : t1.findIdx (fun y => y = c2[i]) < c1.length := by omega
    rw [getD_map_lt c1 _ _ hjlt2 0]
    have ht1j : t1[t1.findIdx fun y => y = c2[i]] = c2[i] :=
      getElem_findIdx_self t1 c2[i] hjmem hjlt
    have hcomp := hcomp2 i hi2 _ hjlt2 (by
      rw [List.getD_eq_getElem _ _ hjlt, List.getD_eq_getElem _ _ hi2]
      exact ht1j)
    have hilt : i < t2.length := by omega
    have ht2i : t2[i] = c1[t1.findIdx fun y => y = c2[i]] := by
      rw [List.getD_eq_getElem _ _ hilt, List.getD_eq_getElem _ _ hjlt2] at hcomp
      exact hcomp
    exact findIdx_eq_of_nodup t2 ht2nd i hilt _ ht2i

/-- The aligning permutations of the forward and the reverse assignment
(under the same pairing of removed and added states) are inverse to each
other, so the emitted signatures agree. -/
theorem permSign_trial_inverse (c1 c2 : Config) (r0 r1 u v : State)
    (hnd1 : c1.Nodup) (hnd2 : c2.Nodup)
    (hr01 : r0 ≠ r1) (huv : u ≠ v)
    (hr0 : r0 ∈ c1) (hr1 : r1 ∈ c1) (hu : u ∈ c2) (hv : v ∈ c2)
    (hr0n : r0 ∉ c2) (hr1n : r1 ∉ c2) (hun : u ∉ c1) (hvn : v ∉ c1)
    (hmul : (c1 : Multiset State) + {u} + {v} = (c2 : Multiset State) + {r0} + {r1}) :
    permSign (c2.map fun x =>
      ((c1.set (c1.findIdx fun y => y = r0) u).set (c1.findIdx fun y => y = r1) v).findIdx
        fun y => y = x)
    = permSign (c1.map fun x =>
      ((c2.set (c2.findIdx fun y => y = u) r0).set (c2.findIdx fun y => y = v) r1).findIdx
        fun y => y = x) := by
  have hT1coe : (((c1.set (c1.findIdx fun y => y = r0) u).set (c1.findIdx fun y => y = r1) v :
      List State) : Multiset State) = (c2 : Multiset State) := by
    have h1 := trial_coe c1 hnd1 r0 r1 u v hr01 hr0 hr1
    rw [hmul] at h1
    have h2 : (((c1.set (c1.findIdx fun y => y = r0) u).set (c1.findIdx fun y => y = r1) v :
        List State) : Multiset State) + ({r0} + {r1})
        = (c2 : Multiset State) + ({r0} + {r1}) := by
      rw [← add_assoc, ← add_assoc]
      exact h1
    exact add_right_cancel h2
  have hT2coe : (((c2.set (c2.findIdx fun y => y = u) r0).set (c2.findIdx fun y => y = v) r1 :
      List State) : Multiset State) = (c1 : Multiset State) := by
    have h1 := trial_coe c2 hnd2 u v r0 r1 huv hu hv
    rw [← hmul] at h1
    have h2 : (((c2.set (c2.findIdx fun y => y = u) r0).set (c2.findIdx fun y => y = v) r1 :
        List State) : Multiset State) + ({u} + {v})
        = (c1 : Multiset State) + ({u} + {v}) := by
      rw [← add_assoc, ← add_assoc]
      exact h1
    exact add_right_cancel h2
  have hlen : c2.length = c1.length := by
    have hc := congrArg Multiset.card hmul
    simp only [Multiset.card_add, Multiset.coe_card, Multiset.card_singleton] at hc
    omega
  refine permSign_map_inverse c1 c2 _ _ ?_ ?_ hlen (by simp) (by simp) ?_ ?_
    (fun i hi j hj => trial_comp c1 c2 r0 r1 u v hnd1 hnd2 hr01 huv hr0 hr1 hu hv
      hr0n hr1n i hi j hj)
    (fun j hj i hi => trial_comp c2 c1 u v r0 r1 hnd2 hnd1 huv hr01 hu hv hr0 hr1
      hun hvn j hj i hi)
  · rw [← Multiset.coe_nodup, hT1coe, Multiset.coe_nodup]
    exact hnd2
  · rw [← Multiset.coe_nodup, hT2coe, Multiset.coe_nodup]
    exact hnd1
  · intro x hx
    rw [← Multiset.mem_coe, hT1coe, Multiset.mem_coe]
    exact hx
  · intro x hx
    rw [← Multiset.mem_coe, hT2coe, Multiset.mem_coe]
    exact hx

/-- Core of the Hermiticity argument: when the forward search succeeds with
the pairing r0 -> u, r1 -> v, the reverse search succeeds with the inverse
pairing, the two signatures agree, and the evaluated term sums of the two
directions coincide coefficientwise. -/
theorem entry_core (l : ℕ) (c1 c2 : Config) (r0 r1 u v : State)
    (hnd1 : c1.Nodup) (hnd2 : c2.Nodup)
    (hr01 : r0 ≠ r1) (huv : u ≠ v)
    (hr0 : r0 ∈ c1) (hr1 : r1 ∈ c1) (hu : u ∈ c2) (hv : v ∈ c2)
    (hr0n : r0 ∉ c2) (hr1n : r1 ∉ c2) (hun : u ∉ c1) (hvn : v ∉ c1)
    (hs0 : r0.2 = u.2) (hs1 : r1.2 = v.2)
    (hmul : (c1 : Multiset State) + {u} + {v} = (c2 : Multiset State) + {r0} + {r1})
    (hpar : (r0.1 + r1.1 + u.1 + v.1) % 2 = 0) (i : Fin 4) :
    ((((tryAssign c1 c2 r0 r1 u v).getD []).map fun t => radOf l t i).map Rad.rval).sum
      = ((((tryAssign c2 c1 u v r0 r1).getD []).map fun t => radOf l t i).map Rad.rval).sum := by
  rw [tryAssign_success c1 c2 hnd1 r0 r1 u v hr01 hr0 hr1 hs0 hs1 hmul]
  rw [tryAssign_success c2 c1 hnd2 u v r0 r1 huv hu hv hs0.symm hs1.symm hmul.symm]
  have hσ : permSign (c2.map fun x =>
      ((c1.set (c1.findIdx fun y => y = r0) u).set (c1.findIdx fun y => y = r1) v).findIdx
        fun y => y = x)
      = permSign (c1.map fun x =>
      ((c2.set (c2.findIdx fun y => y = u) r0).set (c2.findIdx fun y => y = v) r1).findIdx
        fun y => y = x) :=
    permSign_trial_inverse c1 c2 r0 r1 u v hnd1 hnd2 hr01 huv hr0 hr1 hu hv
      hr0n hr1n hun hvn hmul
  have hC1 : (coulomb_contribution r1.1 r0.1 u.1 v.1 l) i
      = (coulomb_contribution v.1 u.1 r0.1 r1.1 l) i :=
    coulomb_swap_rev l r1.1 r0.1 u.1 v.1 (by omega) i
  have hC2 : (coulomb_contribution r1.1 r0.1 v.1 u.1 l) i
      = (coulomb_contribution v.1 u.1 r1.1 r0.1 l) i := by
    rw [coulomb_swap_rev l r1.1 r0.1 v.1 u.1 (by omega) i]
    exact coulomb_swap_pairs l u.1 v.1 r0.1 r1.1 (by omega) i
  have hsw : (r0.2 = r1.2) = (u.2 = v.2) := by rw [hs0, hs1]
  by_cases hss : r0.2 = r1.2
  · rw [if_pos hss, if_pos (hsw ▸ hss)]
    simp only [Option.getD_some, List.map_cons, List.map_nil, List.sum_cons, List.sum_nil,
      radOf, hσ, hC1, hC2]
  · rw [if_neg hss, if_neg (hsw ▸ hss)]
    simp only [Option.getD_some, List.map_cons, List.map_nil, List.sum_cons, List.sum_nil,
      radOf, hσ, hC1]

/-- Listing the same pairing with the two removed states transposed (and the
added states transposed accordingly) does not change the evaluated term sum:
the trial lists coincide, the signatures coincide, and the integral values
agree under the pair-exchange symmetry of the evaluator. -/
theorem tryAssign_flip_val (l : ℕ) (c1 c2 : Config) (r0 r1 u v : State)
    (hnd1 : c1.Nodup) (hr01 : r0 ≠ r1) (huv : u ≠ v)
    (hr0 : r0 ∈ c1) (hr1 : r1 ∈ c1)
    (hs0 : r0.2 = u.2) (hs1 : r1.2 = v.2)
    (hmul : (c1 : Multiset State) + {u} + {v} = (c2 : Multiset State) + {r0} + {r1})
    (hpar : (r0.1 + r1.1 + u.1 + v.1) % 2 = 0) (i : Fin 4) :
    ((((tryAssign c1 c2 r0 r1 u v).getD []).map fun t => radOf l t i).map Rad.rval).sum
      = ((((tryAssign c1 c2 r1 r0 v u).getD []).map fun t => radOf l t i).map Rad.rval).sum := by
  have hmul2 : (c1 : Multiset State) + {v} + {u} = (c2 : Multiset State) + {r1} + {r0} := by
    rw [add_right_comm, hmul, add_right_comm]
  rw [tryAssign_success c1 c2 hnd1 r0 r1 u v hr01 hr0 hr1 hs0 hs1 hmul]
  rw [tryAssign_success c1 c2 hnd1 r1 r0 v u (Ne.symm hr01) hr1 hr0 hs1 hs0 hmul2]
  have hi0 : c1.findIdx (fun y => y = r0) < c1.length := findIdx_lt c1 r0 hr0
  have hi1 : c1.findIdx (fun y => y = r1) < c1.length := findIdx_lt c1 r1 hr1
  have hv0 : c1[c1.findIdx fun y => y = r0] = r0 := getElem_findIdx_self c1 r0 hr0 hi0
  have hv1 : c1[c1.findIdx fun y => y = r1] = r1 := getElem_findIdx_self c1 r1 hr1 hi1
  have hne : c1.findIdx (fun y => y = r0) ≠ c1.findIdx (fun y => y = r1) := by
    intro hcon
    apply hr01
    rw [← hv0, ← hv1]
    congr 1
  have hset : (c1.set (c1.findIdx fun y => y = r0) u).set (c1.findIdx fun y => y = r1) v
      = (c1.set (c1.findIdx fun y => y = r1) v).set (c1.findIdx fun y => y = r0) u :=
    List.set_comm u v c1 hne
  have hCd : (coulomb_contribution r1.1 r0.1 u.1 v.1 l) i
      = (coulomb_contribution r0.1 r1.1 v.1 u.1 l) i :=
    coulomb_swap_pairs l r1.1 r0.1 u.1 v.1 (by omega) i
  have hCe : (coulomb_contribution r1.1 r0.1 v.1 u.1 l) i
      = (coulomb_contribution r0.1 r1.1 u.1 v.1 l) i :=
    coulomb_swap_pairs l r1.1 r0.1 v.1 u.1 (by omega) i
  by_cases hss : r0.2 = r1.2
  · rw [if_pos hss, if_pos hss.symm]
    simp only [Option.getD_some, List.map_cons, List.map_nil, List.sum_cons, List.sum_nil,
      radOf, hset, hCd, hCe]
  · rw [if_neg hss, if_neg (fun hcon => hss hcon.symm)]
    simp only [Option.getD_some, List.map_cons, List.map_nil, List.sum_cons, List.sum_nil,
      radOf, hset, hCd]

theorem tryAssign_fail_spin (c1 c2 : Config) (a b c d : State) (h : ¬a.2 = c.2) :
    tryAssign c1 c2 a b c d = none := by
  unfold tryAssign
  rw [if_neg (fun hc => h hc.1)]

/-- Hermiticity of an assembled matrix entry: for duplicate-free
configurations of equal length in the same (M_L, M_S) sector with
half-integer spins, the evaluated entry for (c1, c2) equals the one for
(c2, c1) on every Slater-Condon coefficient slot. -/
theorem entry_symm (l : ℕ) (c1 c2 : Config)
    (hnd1 : c1.Nodup) (hnd2 : c2.Nodup)
    (hlen : c1.length = c2.length)
    (hml : (c1.map Prod.fst).sum = (c2.map Prod.fst).sum)
    (hms : (c1.map Prod.snd).sum = (c2.map Prod.snd).sum)
    (hsp1 : ∀ x ∈ c1, x.2 = 1 / 2 ∨ x.2 = -(1 / 2))
    (hsp2 : ∀ x ∈ c2, x.2 = 1 / 2 ∨ x.2 = -(1 / 2))
    (i : Fin 4) :
    entryVal l c1 c2 i = entryVal l c2 c1 i := by
  by_cases heq : c1 = c2
  · rw [heq]
  have hne2 : c2 ≠ c1 := Ne.symm heq
  have hleneq := counterSub_length_eq c1 c2 hlen
  by_cases h2 : (counterSub c1 c2).length = 2
  case neg =>
    have h2b : ¬((counterSub c2 c1).length = 2) := by omega
    rw [entryVal_of_terms_nil l c1 c2 (terms_eq_nil_of_not_two_two c1 c2 heq
        (fun hc => h2 hc.1)) i,
      entryVal_of_terms_nil l c2 c1 (terms_eq_nil_of_not_two_two c2 c1 hne2
        (fun hc => h2b hc.1)) i]
  case pos =>
  obtain ⟨a, b, hA⟩ := List.length_eq_two.mp h2
  obtain ⟨c, d, hB⟩ := List.length_eq_two.mp (show (counterSub c2 c1).length = 2 by omega)
  have hAB : (c1 : Multiset State) - (c2 : Multiset State) = a ::ₘ {b} := by
    rw [← counterSub_coe, hA]
    rfl
  have hBA : (c2 : Multiset State) - (c1 : Multiset State) = c ::ₘ {d} := by
    rw [← counterSub_coe, hB]
    rfl
  have hcount1 : ∀ x : State, Multiset.count x (c1 : Multiset State) ≤ 1 :=
    Multiset.nodup_iff_count_le_one.mp (Multiset.coe_nodup.mpr hnd1)
  have hcount2 : ∀ x : State, Multiset.count x (c2 : Multiset State) ≤ 1 :=
    Multiset.nodup_iff_count_le_one.mp (Multiset.coe_nodup.mpr hnd2)
  have hab : a ≠ b := by
    intro hcon
    subst hcon
    have h1 := congrArg (Multiset.count a) hAB
    rw [Multiset.count_sub] at h1
    have h2 : Multiset.count a (a ::ₘ ({a} : Multiset State)) = 1 + 1 := by
      rw [Multiset.count_cons_self, Multiset.count_singleton, if_pos rfl]
    rw [h2] at h1
    have := hcount1 a
    omega
  have hcd : c ≠ d := by
    intro hcon
    subst hcon
    have h1 := congrArg (Multiset.count c) hBA
    rw [Multiset.count_sub] at h1
    have h2 : Multiset.count c (c ::ₘ ({c} : Multiset State)) = 1 + 1 := by
      rw [Multiset.count_cons_self, Multiset.count_singleton, if_pos rfl]
    rw [h2] at h1
    have := hcount2 c
    omega
  have hmema : a ∈ c1 ∧ a ∉ c2 := by
    have h1 := congrArg (Multiset.count a) hAB
    rw [Multiset.count_sub] at h1
    have h2 : Multiset.count a (a ::ₘ ({b} : Multiset State)) = 0 + 1 := by
      rw [Multiset.count_cons_self, Multiset.count_singleton, if_neg hab]
    rw [h2] at h1
    have hc1 := hcount1 a
    constructor
    · exact Multiset.mem_coe.mp (Multiset.one_le_count_iff_mem.mp (by omega))
    · intro hcon
      have : 1 ≤ Multiset.count a (c2 : Multiset State) :=
        Multiset.one_le_count_iff_mem.mpr (Multiset.mem_coe.mpr hcon)
      omega
  have hmemb : b ∈ c1 ∧ b ∉ c2 := by
    have h1 := congrArg (Multiset.count b) hAB
    rw [Multiset.count_sub] at h1
    have h2 : Multiset.count b (a ::ₘ ({b} : Multiset State)) = 1 + 0 := by
      rw [Multiset.count_cons, Multiset.count_singleton, if_pos rfl, if_neg (Ne.symm hab)]
    rw [h2] at h1
    have hc1 := hcount1 b
    constructor
    · exact Multiset.mem_coe.mp (Multiset.one_le_count_iff_mem.mp (by omega))
    · intro hcon
      have : 1 ≤ Multiset.count b (c2 : Multiset State) :=
        Multiset.one_le_count_iff_mem.mpr (Multiset.mem_coe.mpr hcon)
      omega
  have hmemc : c ∈ c2 ∧ c ∉ c1 := by
    have h1 := congrArg (Multiset.count c) hBA
    rw [Multiset.count_sub] at h1
    have h2 : Multiset.count c (c ::ₘ ({d} : Multiset State)) = 0 + 1 := by
      rw [Multiset.count_cons_self, Multiset.count_singleton, if_neg hcd]
    rw [h2] at h1
    have hc2 := hcount2 c
    constructor
    · exact Multiset.mem_coe.mp (Multiset.one_le_count_iff_mem.mp (by omega))
    · intro hcon
      have : 1 ≤ Multiset.count c (c1 : Multiset State) :=
        Multiset.one_le_count_iff_mem.mpr (Multiset.mem_coe.mpr hcon)
      omega
  have hmemd : d ∈ c2 ∧ d ∉ c1 := by
    have h1 := congrArg (Multiset.count d) hBA
    rw [Multiset.count_sub] at h1
    have h2 : Multiset.count d (c ::ₘ ({d} : Multiset State)) = 1 + 0 := by
      rw [Multiset.count_cons, Multiset.count_singleton, if_pos rfl, if_neg (Ne.symm hcd)]
    rw [h2] at h1
    have hc2 := hcount2 d
    constructor
    · exact Multiset.mem_coe.mp (Multiset.one_le_count_iff_mem.mp (by omega))
    · intro hcon
      have : 1 ≤ Multiset.count d (c1 : Multiset State) :=
        Multiset.one_le_count_iff_mem.mpr (Multiset.mem_coe.mpr hcon)
      omega
  have hmulm : (c1 : Multiset State) + {c} + {d} = (c2 : Multiset State) + {a} + {b} := by
    calc (c1 : Multiset State) + {c} + {d}
        = ((c1 : Multiset State) - (c2 : Multiset State)
            + (c1 : Multiset State) ∩ (c2 : Multiset State)) + {c} + {d} := by
          rw [Multiset.sub_add_inter]
      _ = (a ::ₘ {b}) + (c1 : Multiset State) ∩ (c2 : Multiset State) + {c} + {d} := by
          rw [hAB]
      _ = (c ::ₘ {d}) + (c1 : Multiset State) ∩ (c2 : Multiset State) + {a} + {b} := by
          simp only [← Multiset.singleton_add]
          abel
      _ = ((c2 : Multiset State) - (c1 : Multiset State)
            + (c2 : Multiset State) ∩ (c1 : Multiset State)) + {a} + {b} := by
          rw [hBA, Multiset.inter_comm]
      _ = (c2 : Multiset State) + {a} + {b} := by rw [Multiset.sub_add_inter]
  have hsum1 : ((c1 : Multiset State).map Prod.fst).sum = (c1.map Prod.fst).sum := rfl
  have hsum2 : ((c2 : Multiset State).map Prod.fst).sum = (c2.map Prod.fst).sum := rfl
  have hsum1s : ((c1 : Multiset State).map Prod.snd).sum = (c1.map Prod.snd).sum := rfl
  have hsum2s : ((c2 : Multiset State).map Prod.snd).sum = (c2.map Prod.snd).sum := rfl
  have hml1 : a.1 + b.1 = c.1 + d.1 := by
    have h := congrArg (fun s : Multiset State => ((s.map Prod.fst).sum : ℤ)) hmulm
    simp only [Multiset.map_add, Multiset.sum_add, Multiset.map_singleton,
      Multiset.sum_singleton] at h
    rw [hsum1, hsum2, hml] at h
    omega
  have hms1 : a.2 + b.2 = c.2 + d.2 := by
    have h := congrArg (fun s : Multiset State => ((s.map Prod.snd).sum : ℚ)) hmulm
    simp only [Multiset.map_add, Multiset.sum_add, Multiset.map_singleton,
      Multiset.sum_singleton] at h
    rw [hsum1s, hsum2s, hms] at h
    linarith
  have hpar : (a.1 + b.1 + c.1 + d.1) % 2 = 0 := by omega
  have hsa := hsp1 a hmema.1
  have hsb := hsp1 b hmemb.1
  have hsc := hsp2 c hmemc.1
  have hsd := hsp2 d hmemd.1
  have hterm_shape : get_required_coulomb_terms c1 c2
      = searchAssign c1 c2 [(a, b, c, d), (a, b, d, c), (b, a, c, d), (b, a, d, c)] := by
    unfold get_required_coulomb_terms
    rw [if_neg heq, hA, hB]
  have hterm_shape2 : get_required_coulomb_terms c2 c1
      = searchAssign c2 c1 [(c, d, a, b), (c, d, b, a), (d, c, a, b), (d, c, b, a)] := by
    unfold get_required_coulomb_terms
    rw [if_neg hne2, hB, hA]
  by_cases hac : a.2 = c.2
  · have hbd : b.2 = d.2 := by linarith
    have hts1 := tryAssign_success c1 c2 hnd1 a b c d hab hmema.1 hmemb.1 hac hbd hmulm
    have hterm1 : get_required_coulomb_terms c1 c2 = (tryAssign c1 c2 a b c d).getD [] := by
      rw [hterm_shape]
      simp only [searchAssign, hts1, Option.getD_some]
    have hts2 := tryAssign_success c2 c1 hnd2 c d a b hcd hmemc.1 hmemd.1 hac.symm hbd.symm
      hmulm.symm
    have hterm2 : get_required_coulomb_terms c2 c1 = (tryAssign c2 c1 c d a b).getD [] := by
      rw [hterm_shape2]
      simp only [searchAssign, hts2, Option.getD_some]
    unfold entryVal entryRadList
    rw [hterm1, hterm2]
    exact entry_core l c1 c2 a b c d hnd1 hnd2 hab hcd hmema.1 hmemb.1 hmemc.1 hmemd.1
      hmema.2 hmemb.2 hmemc.2 hmemd.2 hac hbd hmulm hpar i
  · have had : a.2 = d.2 := by
      rcases hsa with h1 | h1 <;> rcases hsb with h2 | h2 <;> rcases hsc with h3 | h3 <;>
        rcases hsd with h4 | h4 <;>
        first
          | linarith
          | exact absurd (show a.2 = c.2 by linarith) hac
    have hbc : b.2 = c.2 := by
      rcases hsa with h1 | h1 <;> rcases hsb with h2 | h2 <;> rcases hsc with h3 | h3 <;>
        rcases hsd with h4 | h4 <;>
        first
          | linarith
          | exact absurd (show a.2 = c.2 by linarith) hac
    have hmulm2 : (c1 : Multiset State) + {d} + {c} = (c2 : Multiset State) + {a} + {b} := by
      rw [add_right_comm]
      exact hmulm
    have hfail1 : tryAssign c1 c2 a b c d = none := tryAssign_fail_spin c1 c2 a b c d hac
    have hts1 := tryAssign_success c1 c2 hnd1 a b d c hab hmema.1 hmemb.1 had hbc hmulm2
    have hterm1 : get_required_coulomb_terms c1 c2 = (tryAssign c1 c2 a b d c).getD [] := by
      rw [hterm_shape]
      simp only [searchAssign, hfail1, hts1, Option.getD_some]
    have hfail2 : tryAssign c2 c1 c d a b = none :=
      tryAssign_fail_spin c2 c1 c d a b (fun hcon => hac hcon.symm)
    have hmulm3 : (c2 : Multiset State) + {b} + {a} = (c1 : Multiset State) + {c} + {d} := by
      rw [add_right_comm]
      exact hmulm.symm
    have hts2 := tryAssign_success c2 c1 hnd2 c d b a hcd hmemc.1 hmemd.1 hbc.symm had.symm
      hmulm3
    have hterm2 : get_required_coulomb_terms c2 c1 = (tryAssign c2 c1 c d b a).getD [] := by
      rw [hterm_shape2]
      simp only [searchAssign, hfail2, hts2, Option.getD_some]
    unfold entryVal entryRadList
    rw [hterm1, hterm2]
    have hcore := entry_core l c1 c2 a b d c hnd1 hnd2 hab (Ne.symm hcd) hmema.1 hmemb.1
      hmemd.1 hmemc.1 hmema.2 hmemb.2 hmemd.2 hmemc.2 had hbc hmulm2 (by omega) i
    have hmulm4 : (c2 : Multiset State) + {a} + {b} = (c1 : Multiset State) + {d} + {c} := by
      rw [← hmulm, add_right_comm]
    have hflip := tryAssign_flip_val l c2 c1 d c a b hnd2 (fun hcon => hcd hcon.symm) hab
      hmemd.1 hmemc.1 had.symm hbc.symm hmulm4 (by omega) i
    rw [hcore, hflip]

/-- C1: for every orbital in {s, p, d, f} and every configuration list
enumerated by get_hamiltonian, the assembled Hamiltonian is square with
dimension equal to the number of enumerated configurations (carried by the
index type Fin of the configuration count), and every entry H[i, j] equals
the entry H[j, i] as a simplified symbolic value (coefficientwise on the
Slater-Condon parameters): the assembled symbolic matrix is symmetric. -/
theorem hamiltonian_hermitian (orb : Orbital) (n : ℕ) (ML : ℤ) (MS : ℚ)
    (i j : Fin (enumerate_fn_configurations n ML MS
      (get_single_states (orbital_l orb))).length) :
    Hmat (orbital_l orb)
      (enumerate_fn_configurations n ML MS (get_single_states (orbital_l orb))) i j
    = Hmat (orbital_l orb)
      (enumerate_fn_configurations n ML MS (get_single_states (orbital_l orb))) j i := by
  unfold Hmat
  funext s
  have hmemi : (enumerate_fn_configurations n ML MS
      (get_single_states (orbital_l orb))).get i ∈ enumerate_fn_configurations n ML MS
      (get_single_states (orbital_l orb)) := List.get_mem _ _ i.isLt
  have hmemj : (enumerate_fn_configurations n ML MS
      (get_single_states (orbital_l orb))).get j ∈ enumerate_fn_configurations n ML MS
      (get_single_states (orbital_l orb)) := List.get_mem _ _ j.isLt
  have hsi := enumerate_spec n ML MS (get_single_states (orbital_l orb))
    (get_single_states_nodup (orbital_l orb)) _ hmemi
  have hsj := enumerate_spec n ML MS (get_single_states (orbital_l orb))
    (get_single_states_nodup (orbital_l orb)) _ hmemj
  exact entry_symm (orbital_l orb) _ _ hsi.2.1 hsj.2.1 (hsi.1.trans hsj.1.symm)
    (hsi.2.2.1.trans hsj.2.2.1.symm) (hsi.2.2.2.trans hsj.2.2.2.symm)
    (fun x hx => spin_mem_single_states (orbital_l orb) x
      (enumerate_mem_states n ML MS _ _ hmemi x hx))
    (fun x hx => spin_mem_single_states (orbital_l orb) x
      (enumerate_mem_states n ML MS _ _ hmemj x hx)) s

/-! ## Concrete p-shell matrix entries (l = 1) -/

theorem beq_decEq {α : Type} [inst : DecidableEq α] (a b : α) :
    (@BEq.beq α (@instBEqOfDecidableEq α inst) a b) = decide (a = b) := rfl

theorem w3j_eq_zero_of_m2 (j1 j2 j3 : ℕ) (m1 m2 m3 : ℤ) (h : j2 < m2.natAbs) :
    w3j j1 j2 j3 m1 m2 m3 = Rad.zero := by
  unfold w3j
  rw [if_neg]
  intro hg
  exact absurd hg.2.2.1 (by omega)

theorem coulomb_contribution_none (l : ℕ) (i : Fin 4)
    (hfind : (kList l).find? (fun e => e.2.1 = i) = none) (m1 m2 m3 m4 : ℤ) :
    (coulomb_contribution m1 m2 m3 m4 l) i = Rad.zero := by
  unfold coulomb_contribution
  rw [hfind]

theorem p2pair_AA0 : (coulomb_contribution 1 (-1) (-1) 1 1) 0 = ⟨9 / 4, 16 / 81⟩ := by
  rw [coulomb_contribution_some 1 0 0 0 1 1 (-1) (-1) 1 (by decide)]
  norm_num [coulT, gauntNormRad, Rad.mul, Rad.smul, pre0, w3j_101_000, w3j_101_n101,
    w3j_101_10n1, Rad.mk.injEq]

theorem p2pair_BB0 : (coulomb_contribution 0 0 0 0 1) 0 = ⟨9, 1 / 81⟩ := by
  rw [coulomb_contribution_some 1 0 0 0 1 0 0 0 0 (by decide)]
  norm_num [coulT, gauntNormRad, Rad.mul, Rad.smul, pre0, w3j_101_000, Rad.mk.injEq]

theorem p2pair_CC0 : (coulomb_contribution (-1) 1 1 (-1) 1) 0 = ⟨9 / 4, 16 / 81⟩ := by
  rw [coulomb_contribution_some 1 0 0 0 1 (-1) 1 1 (-1) (by decide)]
  norm_num [coulT, gauntNormRad, Rad.mul, Rad.smul, pre0, w3j_101_000, w3j_101_n101,
    w3j_101_10n1, Rad.mk.injEq]

theorem p2pair_AB0 : (coulomb_contribution 1 (-1) 0 0 1) 0 = Rad.zero := by
  rw [coulomb_contribution_some 1 0 0 0 1 1 (-1) 0 0 (by decide)]
  norm_num [coulT, gauntNormRad, Rad.mul, Rad.smul, pre0, Rad.zero,
    w3j_eq_zero_of_m2 1 0 1 (-1) 1 0 (by decide), Rad.mk.injEq]

theorem p2pair_AC0 : (coulomb_contribution 1 (-1) 1 (-1) 1) 0 = Rad.zero := by
  rw [coulomb_contribution_some 1 0 0 0 1 1 (-1) 1 (-1) (by decide)]
  norm_num [coulT, gauntNormRad, Rad.mul, Rad.smul, pre0, Rad.zero,
    w3j_eq_zero_of_m2 1 0 1 (-1) 2 (-1) (by decide), Rad.mk.injEq]

theorem p2pair_BC0 : (coulomb_contribution 0 0 1 (-1) 1) 0 = Rad.zero := by
  rw [coulomb_contribution_some 1 0 0 0 1 0 0 1 (-1) (by decide)]
  norm_num [coulT, gauntNormRad, Rad.mul, Rad.smul, pre0, Rad.zero,
    w3j_eq_zero_of_m2 1 0 1 0 1 (-1) (by decide), Rad.mk.injEq]

theorem p2pair_AA1 : (coulomb_contribution 1 (-1) (-1) 1 1) 1 = ⟨225 / 16, 256 / 50625⟩ := by
  rw [coulomb_contribution_some 1 1 2 1 5 1 (-1) (-1) 1 (by decide)]
  norm_num [coulT, gauntNormRad, Rad.mul, Rad.smul, pre0, w3j_121_000, w3j_121_n101,
    w3j_121_10n1, Rad.mk.injEq]

theorem p2pair_CC1 : (coulomb_contribution (-1) 1 1 (-1) 1) 1 = ⟨225 / 16, 256 / 50625⟩ := by
  rw [coulomb_contribution_some 1 1 2 1 5 (-1) 1 1 (-1) (by decide)]
  norm_num [coulT, gauntNormRad, Rad.mul, Rad.smul, pre0, w3j_121_000, w3j_121_n101,
    w3j_121_10n1, Rad.mk.injEq]

theorem p2pair_AB1 : (coulomb_contribution 1 (-1) 0 0 1) 1 = ⟨-225 / 4, 16 / 5625⟩ := by
  rw [coulomb_contribution_some 1 1 2 1 5 1 (-1) 0 0 (by decide)]
  norm_num [coulT, gauntNormRad, Rad.mul, Rad.smul, pre0, w3j_121_000, w3j_121_n110,
    w3j_121_01n1, Rad.mk.injEq]

theorem p2pair_AC1 : (coulomb_contribution 1 (-1) 1 (-1) 1) 1 = ⟨225 / 16, 1024 / 5625⟩ := by
  rw [coulomb_contribution_some 1 1 2 1 5 1 (-1) 1 (-1) (by decide)]
  norm_num [coulT, gauntNormRad, Rad.mul, Rad.smul, pre0, w3j_121_000, w3j_121_n12n1,
    Rad.mk.injEq]

theorem p2pair_BC1 : (coulomb_contribution 0 0 1 (-1) 1) 1 = ⟨-225 / 4, 16 / 5625⟩ := by
  rw [coulomb_contribution_some 1 1 2 1 5 0 0 1 (-1) (by decide)]
  norm_num [coulT, gauntNormRad, Rad.mul, Rad.smul, pre0, w3j_121_000, w3j_121_01n1,
    w3j_121_n110, Rad.mk.injEq]

theorem p2pair_BA0 : (coulomb_contribution 0 0 (-1) 1 1) 0 = Rad.zero := by
  rw [coulomb_contribution_some 1 0 0 0 1 0 0 (-1) 1 (by decide)]
  norm_num [coulT, gauntNormRad, Rad.mul, Rad.smul, pre0, Rad.zero,
    w3j_eq_zero_of_m2 1 0 1 0 (-1) 1 (by decide), Rad.mk.injEq]

theorem p2pair_BA1 : (coulomb_contribution 0 0 (-1) 1 1) 1 = ⟨-225 / 4, 16 / 5625⟩ := by
  rw [coulomb_contribution_some 1 1 2 1 5 0 0 (-1) 1 (by decide)]
  norm_num [coulT, gauntNormRad, Rad.mul, Rad.smul, pre0, w3j_121_000, w3j_121_0n11,
    w3j_121_1n10, Rad.mk.injEq]

theorem p2pair_CA0 : (coulomb_contribution (-1) 1 (-1) 1 1) 0 = Rad.zero := by
  rw [coulomb_contribution_some 1 0 0 0 1 (-1) 1 (-1) 1 (by decide)]
  norm_num [coulT, gauntNormRad, Rad.mul, Rad.smul, pre0, Rad.zero,
    w3j_eq_zero_of_m2 1 0 1 1 (-2) 1 (by decide), Rad.mk.injEq]

theorem p2pair_CA1 : (coulomb_contribution (-1) 1 (-1) 1 1) 1 = ⟨225 / 16, 1024 / 5625⟩ := by
  rw [coulomb_contribution_some 1 1 2 1 5 (-1) 1 (-1) 1 (by decide)]
  norm_num [coulT, gauntNormRad, Rad.mul, Rad.smul, pre0, w3j_121_000, w3j_121_1n21,
    Rad.mk.injEq]

theorem p2pair_CB0 : (coulomb_contribution (-1) 1 0 0 1) 0 = Rad.zero := by
  rw [coulomb_contribution_some 1 0 0 0 1 (-1) 1 0 0 (by decide)]
  norm_num [coulT, gauntNormRad, Rad.mul, Rad.smul, pre0, Rad.zero,
    w3j_eq_zero_of_m2 1 0 1 1 (-1) 0 (by decide), Rad.mk.injEq]

theorem p2pair_CB1 : (coulomb_contribution (-1) 1 0 0 1) 1 = ⟨-225 / 4, 16 / 5625⟩ := by
  rw [coulomb_contribution_some 1 1 2 1 5 (-1) 1 0 0 (by decide)]
  norm_num [coulT, gauntNormRad, Rad.mul, Rad.smul, pre0, w3j_121_000, w3j_121_1n10,
    w3j_121_0n11, Rad.mk.injEq]

/-- Any coefficient slot that is absent from the per-l multipole list (for
l = 1 the f4 and f6 slots) evaluates to zero in every matrix entry. -/
theorem entryVal_slot_none (l : ℕ) (i : Fin 4)
    (hfind : (kList l).find? (fun e => e.2.1 = i) = none) (c1 c2 : Config) :
    entryVal l c1 c2 i = 0 := by
  unfold entryVal entryRadList
  apply List.sum_eq_zero
  intro x hx
  rw [List.map_map, List.mem_map] at hx
  obtain ⟨t, ht, rfl⟩ := hx
  obtain ⟨s, k, m1, m2, m3, m4⟩ := t
  cases k <;>
    simp [radOf, Function.comp, coulomb_contribution_none l i hfind, Rad.rval_smul,
      Rad.rval_zero]

theorem p2terms_AA : get_required_coulomb_terms
    [((-1 : ℤ), (1 : ℚ)/2), ((1 : ℤ), -(1 : ℚ)/2)]
    [((-1 : ℤ), (1 : ℚ)/2), ((1 : ℤ), -(1 : ℚ)/2)]
    = [(1, TermKind.direct, (-1, 1, -1, 1))] := by
  norm_num [get_required_coulomb_terms, diagTerms, List.range_succ]

theorem p2terms_BB : get_required_coulomb_terms
    [((0 : ℤ), (1 : ℚ)/2), ((0 : ℤ), -(1 : ℚ)/2)]
    [((0 : ℤ), (1 : ℚ)/2), ((0 : ℤ), -(1 : ℚ)/2)]
    = [(1, TermKind.direct, (0, 0, 0, 0))] := by
  norm_num [get_required_coulomb_terms, diagTerms, List.range_succ]

theorem p2terms_CC : get_required_coulomb_terms
    [((1 : ℤ), (1 : ℚ)/2), ((-1 : ℤ), -(1 : ℚ)/2)]
    [((1 : ℤ), (1 : ℚ)/2), ((-1 : ℤ), -(1 : ℚ)/2)]
    = [(1, TermKind.direct, (1, -1, 1, -1))] := by
  norm_num [get_required_coulomb_terms, diagTerms, List.range_succ]

theorem p2terms_AB : get_required_coulomb_terms
    [((-1 : ℤ), (1 : ℚ)/2), ((1 : ℤ), -(1 : ℚ)/2)]
    [((0 : ℤ), (1 : ℚ)/2), ((0 : ℤ), -(1 : ℚ)/2)]
    = [(1, TermKind.direct, (-1, 1, 0, 0))] := by
  have hp : permSign [0, 1] = 1 := by decide
  norm_num [get_required_coulomb_terms, counterSub, firstDedup, List.filter, beq_decEq,
    List.count_cons, List.count_nil, searchAssign, tryAssign, List.findIdx?, List.set,
    List.isPerm, List.contains, List.erase, List.findIdx, List.findIdx.go, hp]

theorem p2terms_BA : get_required_coulomb_terms
    [((0 : ℤ), (1 : ℚ)/2), ((0 : ℤ), -(1 : ℚ)/2)]
    [((-1 : ℤ), (1 : ℚ)/2), ((1 : ℤ), -(1 : ℚ)/2)]
    = [(1, TermKind.direct, (0, 0, -1, 1))] := by
  have hp : permSign [0, 1] = 1 := by decide
  norm_num [get_required_coulomb_terms, counterSub, firstDedup, List.filter, beq_decEq,
    List.count_cons, List.count_nil, searchAssign, tryAssign, List.findIdx?, List.set,
    List.isPerm, List.contains, List.erase, List.findIdx, List.findIdx.go, hp]

theorem p2terms_AC : get_required_coulomb_terms
    [((-1 : ℤ), (1 : ℚ)/2), ((1 : ℤ), -(1 : ℚ)/2)]
    [((1 : ℤ), (1 : ℚ)/2), ((-1 : ℤ), -(1 : ℚ)/2)]
    = [(1, TermKind.direct, (-1, 1, 1, -1))] := by
  have hp : permSign [0, 1] = 1 := by decide
  norm_num [get_required_coulomb_terms, counterSub, firstDedup, List.filter, beq_decEq,
    List.count_cons, List.count_nil, searchAssign, tryAssign, List.findIdx?, List.set,
    List.isPerm, List.contains, List.erase, List.findIdx, List.findIdx.go, hp]

theorem p2terms_CA : get_required_coulomb_terms
    [((1 : ℤ), (1 : ℚ)/2), ((-1 : ℤ), -(1 : ℚ)/2)]
    [((-1 : ℤ), (1 : ℚ)/2), ((1 : ℤ), -(1 : ℚ)/2)]
    = [(1, TermKind.direct, (1, -1, -1, 1))] := by
  have hp : permSign [0, 1] = 1 := by decide
  norm_num [get_required_coulomb_terms, counterSub, firstDedup, List.filter, beq_decEq,
    List.count_cons, List.count_nil, searchAssign, tryAssign, List.findIdx?, List.set,
    List.isPerm, List.contains, List.erase, List.findIdx, List.findIdx.go, hp]

theorem p2terms_BC : get_required_coulomb_terms
    [((0 : ℤ), (1 : ℚ)/2), ((0 : ℤ), -(1 : ℚ)/2)]
    [((1 : ℤ), (1 : ℚ)/2), ((-1 : ℤ), -(1 : ℚ)/2)]
    = [(1, TermKind.direct, (0, 0, 1, -1))] := by
  have hp : permSign [0, 1] = 1 := by decide
  norm_num [get_required_coulomb_terms, counterSub, firstDedup, List.filter, beq_decEq,
    List.count_cons, List.count_nil, searchAssign, tryAssign, List.findIdx?, List.set,
    List.isPerm, List.contains, List.erase, List.findIdx, List.findIdx.go, hp]

theorem p2terms_CB : get_required_coulomb_terms
    [((1 : ℤ), (1 : ℚ)/2), ((-1 : ℤ), -(1 : ℚ)/2)]
    [((0 : ℤ), (1 : ℚ)/2), ((0 : ℤ), -(1 : ℚ)/2)]
    = [(1, TermKind.direct, (1, -1, 0, 0))] := by
  have hp : permSign [0, 1] = 1 := by decide
  norm_num [get_required_coulomb_terms, counterSub, firstDedup, List.filter, beq_decEq,
    List.count_cons, List.count_nil, searchAssign, tryAssign, List.findIdx?, List.set,
    List.isPerm, List.contains, List.erase, List.findIdx, List.findIdx.go, hp]

theorem p2e_AA0 : entryVal 1 [((-1 : ℤ), (1 : ℚ)/2), ((1 : ℤ), -(1 : ℚ)/2)]
    [((-1 : ℤ), (1 : ℚ)/2), ((1 : ℤ), -(1 : ℚ)/2)] 0 = 1 := by
  unfold entryVal entryRadList
  rw [p2terms_AA]
  simp only [List.map_cons, List.map_nil, List.sum_cons, List.sum_nil, radOf, Rad.rval_smul]
  rw [p2pair_AA0, Rad.rval_of_sq ⟨9 / 4, 16 / 81⟩ (4 / 9) (by norm_num) (by norm_num)]
  norm_num

theorem p2e_AA1 : entryVal 1 [((-1 : ℤ), (1 : ℚ)/2), ((1 : ℤ), -(1 : ℚ)/2)]
    [((-1 : ℤ), (1 : ℚ)/2), ((1 : ℤ), -(1 : ℚ)/2)] 1 = 1 := by
  unfold entryVal entryRadList
  rw [p2terms_AA]
  simp only [List.map_cons, List.map_nil, List.sum_cons, List.sum_nil, radOf, Rad.rval_smul]
  rw [p2pair_AA1, Rad.rval_of_sq ⟨225 / 16, 256 / 50625⟩ (16 / 225) (by norm_num) (by norm_num)]
  norm_num

theorem p2e_BB0 : entryVal 1 [((0 : ℤ), (1 : ℚ)/2), ((0 : ℤ), -(1 : ℚ)/2)]
    [((0 : ℤ), (1 : ℚ)/2), ((0 : ℤ), -(1 : ℚ)/2)] 0 = 1 := by
  unfold entryVal entryRadList
  rw [p2terms_BB]
  simp only [List.map_cons, List.map_nil, List.sum_cons, List.sum_nil, radOf, Rad.rval_smul]
  rw [p2pair_BB0, Rad.rval_of_sq ⟨9, 1 / 81⟩ (1 / 9) (by norm_num) (by norm_num)]
  norm_num

theorem p2e_BB1 : entryVal 1 [((0 : ℤ), (1 : ℚ)/2), ((0 : ℤ), -(1 : ℚ)/2)]
    [((0 : ℤ), (1 : ℚ)/2), ((0 : ℤ), -(1 : ℚ)/2)] 1 = 4 := by
  unfold entryVal entryRadList
  rw [p2terms_BB]
  simp only [List.map_cons, List.map_nil, List.sum_cons, List.sum_nil, radOf, Rad.rval_smul]
  rw [coulomb_pair_p0000, Rad.rval_of_sq ⟨225, 16 / 50625⟩ (4 / 225) (by norm_num) (by norm_num)]
  norm_num

theorem p2e_CC0 : entryVal 1 [((1 : ℤ), (1 : ℚ)/2), ((-1 : ℤ), -(1 : ℚ)/2)]
    [((1 : ℤ), (1 : ℚ)/2), ((-1 : ℤ), -(1 : ℚ)/2)] 0 = 1 := by
  unfold entryVal entryRadList
  rw [p2terms_CC]
  simp only [List.map_cons, List.map_nil, List.sum_cons, List.sum_nil, radOf, Rad.rval_smul]
  rw [p2pair_CC0, Rad.rval_of_sq ⟨9 / 4, 16 / 81⟩ (4 / 9) (by norm_num) (by norm_num)]
  norm_num

theorem p2e_CC1 : entryVal 1 [((1 : ℤ), (1 : ℚ)/2), ((-1 : ℤ), -(1 : ℚ)/2)]
    [((1 : ℤ), (1 : ℚ)/2), ((-1 : ℤ), -(1 : ℚ)/2)] 1 = 1 := by
  unfold entryVal entryRadList
  rw [p2terms_CC]
  simp only [List.map_cons, List.map_nil, List.sum_cons, List.sum_nil, radOf, Rad.rval_smul]
  rw [p2pair_CC1, Rad.rval_of_sq ⟨225 / 16, 256 / 50625⟩ (16 / 225) (by norm_num) (by norm_num)]
  norm_num

theorem p2e_AB0 : entryVal 1 [((-1 : ℤ), (1 : ℚ)/2), ((1 : ℤ), -(1 : ℚ)/2)]
    [((0 : ℤ), (1 : ℚ)/2), ((0 : ℤ), -(1 : ℚ)/2)] 0 = 0 := by
  unfold entryVal entryRadList
  rw [p2terms_AB]
  simp only [List.map_cons, List.map_nil, List.sum_cons, List.sum_nil, radOf, Rad.rval_smul]
  rw [p2pair_AB0, Rad.rval_zero]
  norm_num

theorem p2e_AB1 : entryVal 1 [((-1 : ℤ), (1 : ℚ)/2), ((1 : ℤ), -(1 : ℚ)/2)]
    [((0 : ℤ), (1 : ℚ)/2), ((0 : ℤ), -(1 : ℚ)/2)] 1 = -3 := by
  unfold entryVal entryRadList
  rw [p2terms_AB]
  simp only [List.map_cons, List.map_nil, List.sum_cons, List.sum_nil, radOf, Rad.rval_smul]
  rw [p2pair_AB1, Rad.rval_of_sq ⟨-225 / 4, 16 / 5625⟩ (4 / 75) (by norm_num) (by norm_num)]
  norm_num

theorem p2e_BA0 : entryVal 1 [((0 : ℤ), (1 : ℚ)/2), ((0 : ℤ), -(1 : ℚ)/2)]
    [((-1 : ℤ), (1 : ℚ)/2), ((1 : ℤ), -(1 : ℚ)/2)] 0 = 0 := by
  unfold entryVal entryRadList
  rw [p2terms_BA]
  simp only [List.map_cons, List.map_nil, List.sum_cons, List.sum_nil, radOf, Rad.rval_smul]
  rw [p2pair_BA0, Rad.rval_zero]
  norm_num

theorem p2e_BA1 : entryVal 1 [((0 : ℤ), (1 : ℚ)/2), ((0 : ℤ), -(1 : ℚ)/2)]
    [((-1 : ℤ), (1 : ℚ)/2), ((1 : ℤ), -(1 : ℚ)/2)] 1 = -3 := by
  unfold entryVal entryRadList
  rw [p2terms_BA]
  simp only [List.map_cons, List.map_nil, List.sum_cons, List.sum_nil, radOf, Rad.rval_smul]
  rw [p2pair_BA1, Rad.rval_of_sq ⟨-225 / 4, 16 / 5625⟩ (4 / 75) (by norm_num) (by norm_num)]
  norm_num

theorem p2e_AC0 : entryVal 1 [((-1 : ℤ), (1 : ℚ)/2), ((1 : ℤ), -(1 : ℚ)/2)]
    [((1 : ℤ), (1 : ℚ)/2), ((-1 : ℤ), -(1 : ℚ)/2)] 0 = 0 := by
  unfold entryVal entryRadList
  rw [p2terms_AC]
  simp only [List.map_cons, List.map_nil, List.sum_cons, List.sum_nil, radOf, Rad.rval_smul]
  rw [p2pair_AC0, Rad.rval_zero]
  norm_num

theorem p2e_AC1 : entryVal 1 [((-1 : ℤ), (1 : ℚ)/2), ((1 : ℤ), -(1 : ℚ)/2)]
    [((1 : ℤ), (1 : ℚ)/2), ((-1 : ℤ), -(1 : ℚ)/2)] 1 = 6 := by
  unfold entryVal entryRadList
  rw [p2terms_AC]
  simp only [List.map_cons, List.map_nil, List.sum_cons, List.sum_nil, radOf, Rad.rval_smul]
  rw [p2pair_AC1, Rad.rval_of_sq ⟨225 / 16, 1024 / 5625⟩ (32 / 75) (by norm_num) (by norm_num)]
  norm_num

theorem p2e_CA0 : entryVal 1 [((1 : ℤ), (1 : ℚ)/2), ((-1 : ℤ), -(1 : ℚ)/2)]
    [((-1 : ℤ), (1 : ℚ)/2), ((1 : ℤ), -(1 : ℚ)/2)] 0 = 0 := by
  unfold entryVal entryRadList
  rw [p2terms_CA]
  simp only [List.map_cons, List.map_nil, List.sum_cons, List.sum_nil, radOf, Rad.rval_smul]
  rw [p2pair_CA0, Rad.rval_zero]
  norm_num

theorem p2e_CA1 : entryVal 1 [((1 : ℤ), (1 : ℚ)/2), ((-1 : ℤ), -(1 : ℚ)/2)]
    [((-1 : ℤ), (1 : ℚ)/2), ((1 : ℤ), -(1 : ℚ)/2)] 1 = 6 := by
  unfold entryVal entryRadList
  rw [p2terms_CA]
  simp only [List.map_cons, List.map_nil, List.sum_cons, List.sum_nil, radOf, Rad.rval_smul]
  rw [p2pair_CA1, Rad.rval_of_sq ⟨225 / 16, 1024 / 5625⟩ (32 / 75) (by norm_num) (by norm_num)]
  norm_num

theorem p2e_BC0 : entryVal 1 [((0 : ℤ), (1 : ℚ)/2), ((0 : ℤ), -(1 : ℚ)/2)]
    [((1 : ℤ), (1 : ℚ)/2), ((-1 : ℤ), -(1 : ℚ)/2)] 0 = 0 := by
  unfold entryVal entryRadList
  rw [p2terms_BC]
  simp only [List.map_cons, List.map_nil, List.sum_cons, List.sum_nil, radOf, Rad.rval_smul]
  rw [p2pair_BC0, Rad.rval_zero]
  norm_num

theorem p2e_BC1 : entryVal 1 [((0 : ℤ), (1 : ℚ)/2), ((0 : ℤ), -(1 : ℚ)/2)]
    [((1 : ℤ), (1 : ℚ)/2), ((-1 : ℤ), -(1 : ℚ)/2)] 1 = -3 := by
  unfold entryVal entryRadList
  rw [p2terms_BC]
  simp only [List.map_cons, List.map_nil, List.sum_cons, List.sum_nil, radOf, Rad.rval_smul]
  rw [p2pair_BC1, Rad.rval_of_sq ⟨-225 / 4, 16 / 5625⟩ (4 / 75) (by norm_num) (by norm_num)]
  norm_num

theorem p2e_CB0 : entryVal 1 [((1 : ℤ), (1 : ℚ)/2), ((-1 : ℤ), -(1 : ℚ)/2)]
    [((0 : ℤ), (1 : ℚ)/2), ((0 : ℤ), -(1 : ℚ)/2)] 0 = 0 := by
  unfold entryVal entryRadList
  rw [p2terms_CB]
  simp only [List.map_cons, List.map_nil, List.sum_cons, List.sum_nil, radOf, Rad.rval_smul]
  rw [p2pair_CB0, Rad.rval_zero]
  norm_num

theorem p2e_CB1 : entryVal 1 [((1 : ℤ), (1 : ℚ)/2), ((-1 : ℤ), -(1 : ℚ)/2)]
    [((0 : ℤ), (1 : ℚ)/2), ((0 : ℤ), -(1 : ℚ)/2)] 1 = -3 := by
  unfold entryVal entryRadList
  rw [p2terms_CB]
  simp only [List.map_cons, List.map_nil, List.sum_cons, List.sum_nil, radOf, Rad.rval_smul]
  rw [p2pair_CB1, Rad.rval_of_sq ⟨-225 / 4, 16 / 5625⟩ (4 / 75) (by norm_num) (by norm_num)]
  norm_num

theorem p2cell_AA (F0 F2 F4 F6 : ℝ) :
    paramEval (entryVal 1 [((-1 : ℤ), (1 : ℚ)/2), ((1 : ℤ), -(1 : ℚ)/2)]
      [((-1 : ℤ), (1 : ℚ)/2), ((1 : ℤ), -(1 : ℚ)/2)]) F0 F2 F4 F6 = F0 + F2 := by
  unfold paramEval
  rw [p2e_AA0, p2e_AA1, entryVal_slot_none 1 2 (by decide), entryVal_slot_none 1 3 (by decide)]
  ring

theorem p2cell_AB (F0 F2 F4 F6 : ℝ) :
    paramEval (entryVal 1 [((-1 : ℤ), (1 : ℚ)/2), ((1 : ℤ), -(1 : ℚ)/2)]
      [((0 : ℤ), (1 : ℚ)/2), ((0 : ℤ), -(1 : ℚ)/2)]) F0 F2 F4 F6 = -(3 * F2) := by
  unfold paramEval
  rw [p2e_AB0, p2e_AB1, entryVal_slot_none 1 2 (by decide), entryVal_slot_none 1 3 (by decide)]
  ring

theorem p2cell_AC (F0 F2 F4 F6 : ℝ) :
    paramEval (entryVal 1 [((-1 : ℤ), (1 : ℚ)/2), ((1 : ℤ), -(1 : ℚ)/2)]
      [((1 : ℤ), (1 : ℚ)/2), ((-1 : ℤ), -(1 : ℚ)/2)]) F0 F2 F4 F6 = 6 * F2 := by
  unfold paramEval
  rw [p2e_AC0, p2e_AC1, entryVal_slot_none 1 2 (by decide), entryVal_slot_none 1 3 (by decide)]
  ring

theorem p2cell_BA (F0 F2 F4 F6 : ℝ) :
    paramEval (entryVal 1 [((0 : ℤ), (1 : ℚ)/2), ((0 : ℤ), -(1 : ℚ)/2)]
      [((-1 : ℤ), (1 : ℚ)/2), ((1 : ℤ), -(1 : ℚ)/2)]) F0 F2 F4 F6 = -(3 * F2) := by
  unfold paramEval
  rw [p2e_BA0, p2e_BA1, entryVal_slot_none 1 2 (by decide), entryVal_slot_none 1 3 (by decide)]
  ring

theorem p2cell_BB (F0 F2 F4 F6 : ℝ) :
    paramEval (entryVal 1 [((0 : ℤ), (1 : ℚ)/2), ((0 : ℤ), -(1 : ℚ)/2)]
      [((0 : ℤ), (1 : ℚ)/2), ((0 : ℤ), -(1 : ℚ)/2)]) F0 F2 F4 F6 = F0 + 4 * F2 := by
  unfold paramEval
  rw [p2e_BB0, p2e_BB1, entryVal_slot_none 1 2 (by decide), entryVal_slot_none 1 3 (by decide)]
  ring

theorem p2cell_BC (F0 F2 F4 F6 : ℝ) :
    paramEval (entryVal 1 [((0 : ℤ), (1 : ℚ)/2), ((0 : ℤ), -(1 : ℚ)/2)]
      [((1 : ℤ), (1 : ℚ)/2), ((-1 : ℤ), -(1 : ℚ)/2)]) F0 F2 F4 F6 = -(3 * F2) := by
  unfold paramEval
  rw [p2e_BC0, p2e_BC1, entryVal_slot_none 1 2 (by decide), entryVal_slot_none 1 3 (by decide)]
  ring

theorem p2cell_CA (F0 F2 F4 F6 : ℝ) :
    paramEval (entryVal 1 [((1 : ℤ), (1 : ℚ)/2), ((-1 : ℤ), -(1 : ℚ)/2)]
      [((-1 : ℤ), (1 : ℚ)/2), ((1 : ℤ), -(1 : ℚ)/2)]) F0 F2 F4 F6 = 6 * F2 := by
  unfold paramEval
  rw [p2e_CA0, p2e_CA1, entryVal_slot_none 1 2 (by decide), entryVal_slot_none 1 3 (by decide)]
  ring

theorem p2cell_CB (F0 F2 F4 F6 : ℝ) :
    paramEval (entryVal 1 [((1 : ℤ), (1 : ℚ)/2), ((-1 : ℤ), -(1 : ℚ)/2)]
      [((0 : ℤ), (1 : ℚ)/2), ((0 : ℤ), -(1 : ℚ)/2)]) F0 F2 F4 F6 = -(3 * F2) := by
  unfold paramEval
  rw [p2e_CB0, p2e_CB1, entryVal_slot_none 1 2 (by decide), entryVal_slot_none 1 3 (by decide)]
  ring

theorem p2cell_CC (F0 F2 F4 F6 : ℝ) :
    paramEval (entryVal 1 [((1 : ℤ), (1 : ℚ)/2), ((-1 : ℤ), -(1 : ℚ)/2)]
      [((1 : ℤ), (1 : ℚ)/2), ((-1 : ℤ), -(1 : ℚ)/2)]) F0 F2 F4 F6 = F0 + F2 := by
  unfold paramEval
  rw [p2e_CC0, p2e_CC1, entryVal_slot_none 1 2 (by decide), entryVal_slot_none 1 3 (by decide)]
  ring

theorem p2_configs : enumerate_fn_configurations 2 0 0 (get_single_states 1)
    = [[((-1 : ℤ), (1 : ℚ)/2), ((1 : ℤ), -(1 : ℚ)/2)],
       [((0 : ℤ), (1 : ℚ)/2), ((0 : ℤ), -(1 : ℚ)/2)],
       [((1 : ℤ), (1 : ℚ)/2), ((-1 : ℤ), -(1 : ℚ)/2)]] := by
  have hr : List.range (2 * 1 + 1) = [0, 1, 2] := rfl
  have hs : get_single_states 1 = [((-1 : ℤ), (1 : ℚ)/2), ((0 : ℤ), (1 : ℚ)/2),
      ((1 : ℤ), (1 : ℚ)/2), ((-1 : ℤ), -(1 : ℚ)/2), ((0 : ℤ), -(1 : ℚ)/2),
      ((1 : ℤ), -(1 : ℚ)/2)] := by
    unfold get_single_states
    rw [hr]
    norm_num
  unfold enumerate_fn_configurations
  rw [hs]
  norm_num [combinations, List.filter]

theorem p2_resp_configs : (get_hamiltonian Orbital.p 2 0 0).configs
    = [[((-1 : ℤ), (1 : ℚ)/2), ((1 : ℤ), -(1 : ℚ)/2)],
       [((0 : ℤ), (1 : ℚ)/2), ((0 : ℤ), -(1 : ℚ)/2)],
       [((1 : ℤ), (1 : ℚ)/2), ((-1 : ℤ), -(1 : ℚ)/2)]] := by
  unfold get_hamiltonian
  simp only [orbital_l, p2_configs]
  norm_num

theorem p2_matrix (F0 F2 F4 F6 : ℝ) (p q : Fin 3) :
    paramEval (entryVal 1 ((get_hamiltonian Orbital.p 2 0 0).configs.getD (p : ℕ) [])
      ((get_hamiltonian Orbital.p 2 0 0).configs.getD (q : ℕ) [])) F0 F2 F4 F6
    = !![F0 + F2, -(3 * F2), 6 * F2;
         -(3 * F2), F0 + 4 * F2, -(3 * F2);
         6 * F2, -(3 * F2), F0 + F2] p q := by
  rw [p2_resp_configs]
  fin_cases p <;> fin_cases q <;>
    first
      | exact p2cell_AA F0 F2 F4 F6
      | exact p2cell_AB F0 F2 F4 F6
      | exact p2cell_AC F0 F2 F4 F6
      | exact p2cell_BA F0 F2 F4 F6
      | exact p2cell_BB F0 F2 F4 F6
      | exact p2cell_BC F0 F2 F4 F6
      | exact p2cell_CA F0 F2 F4 F6
      | exact p2cell_CB F0 F2 F4 F6
      | exact p2cell_CC F0 F2 F4 F6

theorem p2_charpoly (F0 F2 E : ℝ) :
    Matrix.det (!![F0 + F2, -(3 * F2), 6 * F2;
                   -(3 * F2), F0 + 4 * F2, -(3 * F2);
                   6 * F2, -(3 * F2), F0 + F2]
        - E • (1 : Matrix (Fin 3) (Fin 3) ℝ))
      = -((E - (F0 - 5 * F2)) * (E - (F0 + F2)) * (E - (F0 + 10 * F2))) := by
  rw [Matrix.det_fin_three]
  simp [Matrix.sub_apply, Matrix.smul_apply, Matrix.one_apply]
  ring

/-- C2: for orbital p (l = 1) with two electrons, target M_L = 0 and target
M_S = 0, get_hamiltonian enumerates exactly the three configurations of the
sector, the assembled Hamiltonian evaluated on the Slater-Condon parameters
is the standard 3 x 3 p^2 matrix in f0 and f2 (f4 and f6 do not appear),
its characteristic polynomial factors with the three roots f0 - 5 f2 (the
3P term), f0 + f2 (1D) and f0 + 10 f2 (1S), and whenever f2 is nonzero the
three eigenvalues are distinct with pairwise differences 6 f2, 9 f2 and
15 f2 — the standard Slater-Condon p^2 multiplet splitting pattern up to
the common f0 shift. -/
theorem p2_multiplet_spectrum :
    ((get_hamiltonian Orbital.p 2 0 0).configs
        = [[((-1 : ℤ), (1 : ℚ)/2), ((1 : ℤ), -(1 : ℚ)/2)],
           [((0 : ℤ), (1 : ℚ)/2), ((0 : ℤ), -(1 : ℚ)/2)],
           [((1 : ℤ), (1 : ℚ)/2), ((-1 : ℤ), -(1 : ℚ)/2)]])
    ∧ (∀ F0 F2 F4 F6 : ℝ, ∀ p q : Fin 3,
        paramEval (entryVal 1 ((get_hamiltonian Orbital.p 2 0 0).configs.getD (p : ℕ) [])
            ((get_hamiltonian Orbital.p 2 0 0).configs.getD (q : ℕ) [])) F0 F2 F4 F6
          = !![F0 + F2, -(3 * F2), 6 * F2;
               -(3 * F2), F0 + 4 * F2, -(3 * F2);
               6 * F2, -(3 * F2), F0 + F2] p q)
    ∧ (∀ F0 F2 E : ℝ,
        Matrix.det (!![F0 + F2, -(3 * F2), 6 * F2;
                       -(3 * F2), F0 + 4 * F2, -(3 * F2);
                       6 * F2, -(3 * F2), F0 + F2]
            - E • (1 : Matrix (Fin 3) (Fin 3) ℝ))
          = -((E - (F0 - 5 * F2)) * (E - (F0 + F2)) * (E - (F0 + 10 * F2))))
    ∧ (∀ F0 F2 : ℝ, F2 ≠ 0 →
        (F0 - 5 * F2 ≠ F0 + F2 ∧ F0 - 5 * F2 ≠ F0 + 10 * F2 ∧ F0 + F2 ≠ F0 + 10 * F2)
          ∧ (F0 + F2) - (F0 - 5 * F2) = 6 * F2
          ∧ (F0 + 10 * F2) - (F0 + F2) = 9 * F2
          ∧ (F0 + 10 * F2) - (F0 - 5 * F2) = 15 * F2) := by
  refine ⟨p2_resp_configs, fun F0 F2 F4 F6 p q => p2_matrix F0 F2 F4 F6 p q,
    fun F0 F2 E => p2_charpoly F0 F2 E, fun F0 F2 hF2 => ?_⟩
  refine ⟨⟨fun hcon => hF2 (by linarith), fun hcon => hF2 (by linarith),
    fun hcon => hF2 (by linarith)⟩, by ring, by ring, by ring⟩

theorem p2_multiplet_spectrum_witness :
    (1 : ℝ) ≠ 0 ∧
      (((0 : ℝ) - 5 * 1 ≠ 0 + 1 ∧ (0 : ℝ) - 5 * 1 ≠ 0 + 10 * 1 ∧ (0 : ℝ) + 1 ≠ 0 + 10 * 1)
        ∧ ((0 : ℝ) + 1) - (0 - 5 * 1) = 6 * 1
        ∧ ((0 : ℝ) + 10 * 1) - (0 + 1) = 9 * 1
        ∧ ((0 : ℝ) + 10 * 1) - (0 - 5 * 1) = 15 * 1) :=
  ⟨by norm_num, p2_multiplet_spectrum.2.2.2 0 1 (by norm_num)⟩

/-- C3: for l in {1, 2, 3} the evaluator equals the specified per-order sum
only after correcting the specification so that the tabulated per-l
normalization constant c_k multiplies each of the two Gaunt factors — c_k
enters each k-contribution squared, not to the first power as the
specification words it (see the counterexample at l = 1,
(m1, m2, m3, m4) = (0, 0, 0, 0): first-power value 4/5, code value 4). -/
theorem coulomb_matches_squared_spec (l : ℕ) (hl : l = 1 ∨ l = 2 ∨ l = 3)
    (m1 m2 m3 m4 : ℤ) (i : Fin 4) :
    ((coulomb_contribution m1 m2 m3 m4 l) i).rval = coulombSpecCoeffSq l i m1 m2 m3 m4 :=
  coulomb_rval_eq_specSq l hl m1 m2 m3 m4 i

theorem coulomb_matches_squared_spec_witness :
    ((1 : ℕ) = 1 ∨ (1 : ℕ) = 2 ∨ (1 : ℕ) = 3)
    ∧ ((coulomb_contribution 0 0 0 0 1) 1).rval = coulombSpecCoeffSq 1 1 0 0 0 0 :=
  ⟨Or.inl rfl, coulomb_matches_squared_spec 1 (Or.inl rfl) 0 0 0 0 1⟩

/-- The specification formula with the constant to the first power gives
4/5 on the f2 slot at l = 1, (0, 0, 0, 0), while the code computes 4: the
worded formula disagrees with the source. -/
theorem coulomb_spec_firstpower_counterexample :
    coulombSpecCoeff 1 1 0 0 0 0 = 4 / 5
    ∧ ((coulomb_contribution 0 0 0 0 1) 1).rval = 4
    ∧ ((4 : ℝ) / 5 ≠ 4) :=
  ⟨spec_val_p0000, code_val_p0000, by norm_num⟩

/-- C4: the l = 0 Coulomb contribution is identically zero (every
Slater-Condon slot), but the coefficients are in general quadratic-surd
values rather than rationals: at l = 1, (m1, m2, m3, m4) = (-1, -1, 1, 0)
the f2 coefficient is -3 sqrt(2), an irrational number, refuting the
"no square-root coefficients remain" part of the claim. -/
theorem coulomb_l0_zero_and_irrational_example :
    (∀ m1 m2 m3 m4 : ℤ, ∀ i : Fin 4, (coulomb_contribution m1 m2 m3 m4 0) i = Rad.zero)
    ∧ Irrational (((coulomb_contribution (-1) (-1) 1 0 1) 1).rval) := by
  constructor
  · intro m1 m2 m3 m4 i
    exact coulomb_contribution_none 0 i rfl m1 m2 m3 m4
  · rw [code_val_irr]
    exact irrational_sqrt_two.rat_mul (by norm_num)

/-- A Coulomb coefficient that is no rational number: the f2 slot at l = 1,
(-1, -1, 1, 0) equals -3 sqrt(2). -/
theorem coulomb_irrational_coefficient_counterexample :
    ¬ ∃ q : ℚ, ((coulomb_contribution (-1) (-1) 1 0 1) 1).rval = (q : ℝ) := by
  rw [code_val_irr]
  rintro ⟨q, hq⟩
  exact (irrational_sqrt_two.rat_mul (show (-3 : ℚ) ≠ 0 by norm_num)) ⟨q, hq.symm⟩

/-- C5: the tool performs no domain validation: when n_electrons exceeds
the single-particle state-space size, no error is raised and no
fail-fast path exists — enumeration simply yields no configurations and
get_hamiltonian returns the ordinary zero-configuration report (the
response type carries every observable effect of the handler; it has no
error channel).  This refutes the claimed descriptive validation error and
is the corrected behaviour. -/
theorem invalid_input_returns_empty (orb : Orbital) (n : ℕ) (ML : ℤ) (MS : ℚ)
    (h : (get_single_states (orbital_l orb)).length < n) :
    get_hamiltonian orb n ML MS
      = { nconfigs := 0, configs := [], hamiltonianIncluded := false,
          eigenvaluesIncluded := false, tooLargeNote := false } := by
  have he : enumerate_fn_configurations n ML MS (get_single_states (orbital_l orb)) = [] := by
    unfold enumerate_fn_configurations
    rw [combinations_eq_nil n _ h]
    rfl
  unfold get_hamiltonian
  simp [he]

theorem invalid_input_returns_empty_witness :
    (get_single_states (orbital_l Orbital.s)).length < 3
    ∧ get_hamiltonian Orbital.s 3 0 0
      = { nconfigs := 0, configs := [], hamiltonianIncluded := false,
          eigenvaluesIncluded := false, tooLargeNote := false } :=
  ⟨by decide, invalid_input_returns_empty Orbital.s 3 0 0 (by decide)⟩

/-- Overfilled s-shell call: three electrons in the two s-states produce a
normal zero-configuration response, not a validation error. -/
theorem no_validation_error_counterexample :
    get_hamiltonian Orbital.s 3 0 0
      = { nconfigs := 0, configs := [], hamiltonianIncluded := false,
          eigenvaluesIncluded := false, tooLargeNote := false } := by
  decide

/-- C6: when the two multiset differences do not both have exactly two
elements (in particular when the configurations differ in more than two
single-particle states), the selector returns no terms and the matrix
element is exactly zero on every Slater-Condon slot. -/
theorem terms_empty_of_not_two_two (c1 c2 : Config) (h1 : c1 ≠ c2)
    (h2 : ¬((counterSub c1 c2).length = 2 ∧ (counterSub c2 c1).length = 2)) :
    get_required_coulomb_terms c1 c2 = [] ∧ ∀ (l : ℕ) (i : Fin 4), entryVal l c1 c2 i = 0 := by
  have ht := terms_eq_nil_of_not_two_two c1 c2 h1 h2
  exact ⟨ht, fun l i => entryVal_of_terms_nil l c1 c2 ht i⟩

theorem terms_empty_of_not_two_two_witness :
    (([((0 : ℤ), (0 : ℚ))] : Config) ≠ ([] : Config))
    ∧ ¬((counterSub ([((0 : ℤ), (0 : ℚ))] : Config) ([] : Config)).length = 2
        ∧ (counterSub ([] : Config) ([((0 : ℤ), (0 : ℚ))] : Config)).length = 2)
    ∧ (get_required_coulomb_terms [((0 : ℤ), (0 : ℚ))] [] = []
        ∧ ∀ (l : ℕ) (i : Fin 4), entryVal l [((0 : ℤ), (0 : ℚ))] [] i = 0) := by
  have h1 : (([((0 : ℤ), (0 : ℚ))] : Config) ≠ ([] : Config)) := by simp
  have h2 : ¬((counterSub ([((0 : ℤ), (0 : ℚ))] : Config) ([] : Config)).length = 2
      ∧ (counterSub ([] : Config) ([((0 : ℤ), (0 : ℚ))] : Config)).length = 2) := by
    norm_num [counterSub, firstDedup, List.filter, beq_decEq, List.count_cons, List.count_nil]
  exact ⟨h1, h2, terms_empty_of_not_two_two [((0 : ℤ), (0 : ℚ))] [] h1 h2⟩

/-- C7: every configuration returned by the enumerator over the l-shell
single-particle states has exactly n pairwise-distinct states, and its
total m_l and total m_s equal the requested targets under exact rational
equality. -/
theorem enumerate_configurations_spec (l n : ℕ) (ML : ℤ) (MS : ℚ) (c : Config)
    (hc : c ∈ enumerate_fn_configurations n ML MS (get_single_states l)) :
    c.length = n ∧ c.Nodup ∧ (c.map Prod.fst).sum = ML ∧ (c.map Prod.snd).sum = MS :=
  enumerate_spec n ML MS _ (get_single_states_nodup l) c hc

theorem enumerate_configurations_spec_witness :
    ([((-1 : ℤ), (1 : ℚ)/2), ((1 : ℤ), -(1 : ℚ)/2)]
        ∈ enumerate_fn_configurations 2 0 0 (get_single_states 1))
    ∧ (([((-1 : ℤ), (1 : ℚ)/2), ((1 : ℤ), -(1 : ℚ)/2)] : Config).length = 2
        ∧ ([((-1 : ℤ), (1 : ℚ)/2), ((1 : ℤ), -(1 : ℚ)/2)] : Config).Nodup
        ∧ (([((-1 : ℤ), (1 : ℚ)/2), ((1 : ℤ), -(1 : ℚ)/2)] : Config).map Prod.fst).sum = 0
        ∧ (([((-1 : ℤ), (1 : ℚ)/2), ((1 : ℤ), -(1 : ℚ)/2)] : Config).map Prod.snd).sum = 0) := by
  have hm : ([((-1 : ℤ), (1 : ℚ)/2), ((1 : ℤ), -(1 : ℚ)/2)] : Config)
      ∈ enumerate_fn_configurations 2 0 0 (get_single_states 1) := by
    rw [p2_configs]
    simp
  exact ⟨hm, enumerate_configurations_spec 1 2 0 0 _ hm⟩

/-- C8: the eigenvalue block is emitted exactly when the configuration
count is between 1 and 6 — not for every count at most 6 as claimed: at
zero configurations the early return reports the count alone, with no
Hamiltonian and no eigenvalue block.  The too-large note appears exactly
above 6, and the Hamiltonian block exactly when at least one configuration
exists; the spectrum is never silently dropped in the covered range. -/
theorem eigenvalue_gate (orb : Orbital) (n : ℕ) (ML : ℤ) (MS : ℚ) :
    ((get_hamiltonian orb n ML MS).eigenvaluesIncluded = true
        ↔ 1 ≤ (get_hamiltonian orb n ML MS).nconfigs
          ∧ (get_hamiltonian orb n ML MS).nconfigs ≤ 6)
    ∧ ((get_hamiltonian orb n ML MS).tooLargeNote = true
        ↔ 6 < (get_hamiltonian orb n ML MS).nconfigs)
    ∧ ((get_hamiltonian orb n ML MS).hamiltonianIncluded = true
        ↔ 1 ≤ (get_hamiltonian orb n ML MS).nconfigs) := by
  unfold get_hamiltonian
  by_cases h : (enumerate_fn_configurations n ML MS
      (get_single_states (orbital_l orb))).length = 0
  · simp [h]
  · simp [h, decide_eq_true_eq]
    omega

/-- At zero enumerated configurations the count is at most 6 yet no
eigenvalue block is emitted: the claimed if-and-only-if at "count at most
6" fails on the early-return branch. -/
theorem eigenvalue_gate_zero_counterexample :
    (get_hamiltonian Orbital.s 3 0 0).nconfigs ≤ 6
    ∧ (get_hamiltonian Orbital.s 3 0 0).eigenvaluesIncluded = false := by
  decide

/-- C9: two configurations from one enumerator call have multiset
differences of equal size, and that size is never exactly one: a
one-state difference would force the removed and the added state to carry
the same m_l and m_s, contradicting their distinctness. -/
theorem enumerate_no_single_difference (l n : ℕ) (ML : ℤ) (MS : ℚ) (c1 c2 : Config)
    (h1 : c1 ∈ enumerate_fn_configurations n ML MS (get_single_states l))
    (h2 : c2 ∈ enumerate_fn_configurations n ML MS (get_single_states l)) :
    (counterSub c1 c2).length = (counterSub c2 c1).length
    ∧ (counterSub c1 c2).length ≠ 1 := by
  have s1 := enumerate_spec n ML MS _ (get_single_states_nodup l) c1 h1
  have s2 := enumerate_spec n ML MS _ (get_single_states_nodup l) c2 h2
  have hlen : c1.length = c2.length := s1.1.trans s2.1.symm
  have heq := counterSub_length_eq c1 c2 hlen
  refine ⟨heq, ?_⟩
  intro hcon
  have hcon2 : (counterSub c2 c1).length = 1 := by omega
  obtain ⟨r, hr⟩ := List.length_eq_one.mp hcon
  obtain ⟨a, ha⟩ := List.length_eq_one.mp hcon2
  exact counterSub_singleton_impossible c1 c2 (s1.2.2.1.trans s2.2.2.1.symm)
    (s1.2.2.2.trans s2.2.2.2.symm) r a hr ha

theorem enumerate_no_single_difference_witness :
    ([((-1 : ℤ), (1 : ℚ)/2), ((1 : ℤ), -(1 : ℚ)/2)]
        ∈ enumerate_fn_configurations 2 0 0 (get_single_states 1))
    ∧ ([((0 : ℤ), (1 : ℚ)/2), ((0 : ℤ), -(1 : ℚ)/2)]
        ∈ enumerate_fn_configurations 2 0 0 (get_single_states 1))
    ∧ ((counterSub ([((-1 : ℤ), (1 : ℚ)/2), ((1 : ℤ), -(1 : ℚ)/2)] : Config)
          [((0 : ℤ), (1 : ℚ)/2), ((0 : ℤ), -(1 : ℚ)/2)]).length
        = (counterSub ([((0 : ℤ), (1 : ℚ)/2), ((0 : ℤ), -(1 : ℚ)/2)] : Config)
          [((-1 : ℤ), (1 : ℚ)/2), ((1 : ℤ), -(1 : ℚ)/2)]).length
      ∧ (counterSub ([((-1 : ℤ), (1 : ℚ)/2), ((1 : ℤ), -(1 : ℚ)/2)] : Config)
          [((0 : ℤ), (1 : ℚ)/2), ((0 : ℤ), -(1 : ℚ)/2)]).length ≠ 1) := by
  have hmA : ([((-1 : ℤ), (1 : ℚ)/2), ((1 : ℤ), -(1 : ℚ)/2)] : Config)
      ∈ enumerate_fn_configurations 2 0 0 (get_single_states 1) := by
    rw [p2_configs]
    simp
  have hmB : ([((0 : ℤ), (1 : ℚ)/2), ((0 : ℤ), -(1 : ℚ)/2)] : Config)
      ∈ enumerate_fn_configurations 2 0 0 (get_single_states 1) := by
    rw [p2_configs]
    simp
  exact ⟨hmA, hmB, enumerate_no_single_difference 1 2 0 0 _ _ hmA hmB⟩

/-- C10: the diagonal branch fires only on tuples equal element-by-element
in order; two configurations holding the same states in different order
have empty multiset differences, fail the two-element check, and yield the
empty term list instead of the diagonal direct/exchange terms. -/
theorem diagonal_branch_order_sensitive :
    (∀ c : Config, get_required_coulomb_terms c c = diagTerms c)
    ∧ ∀ c1 c2 : Config, c1 ≠ c2 → c1.Perm c2 → get_required_coulomb_terms c1 c2 = [] := by
  constructor
  · intro c
    unfold get_required_coulomb_terms
    rw [if_pos rfl]
  · intro c1 c2 h1 h2
    exact terms_eq_nil_of_perm_ne c1 c2 h1 h2

theorem diagonal_branch_order_sensitive_witness :
    (([((0 : ℤ), (0 : ℚ)), ((1 : ℤ), (0 : ℚ))] : Config)
        ≠ [((1 : ℤ), (0 : ℚ)), ((0 : ℤ), (0 : ℚ))])
    ∧ ([((0 : ℤ), (0 : ℚ)), ((1 : ℤ), (0 : ℚ))] : Config).Perm
        [((1 : ℤ), (0 : ℚ)), ((0 : ℤ), (0 : ℚ))]
    ∧ get_required_coulomb_terms [((0 : ℤ), (0 : ℚ)), ((1 : ℤ), (0 : ℚ))]
        [((1 : ℤ), (0 : ℚ)), ((0 : ℤ), (0 : ℚ))] = [] := by
  have h1 : (([((0 : ℤ), (0 : ℚ)), ((1 : ℤ), (0 : ℚ))] : Config)
      ≠ [((1 : ℤ), (0 : ℚ)), ((0 : ℤ), (0 : ℚ))]) := by decide
  have h2 : ([((0 : ℤ), (0 : ℚ)), ((1 : ℤ), (0 : ℚ))] : Config).Perm
      [((1 : ℤ), (0 : ℚ)), ((0 : ℤ), (0 : ℚ))] := by decide
  exact ⟨h1, h2, (diagonal_branch_order_sensitive).2 _ _ h1 h2⟩
